import Mathlib

/-!
# Verification of the `ilex` XML library against its specification

This file is a shallow embedding, in Lean 4, of the core of the `ilex`
Rust crate (files `src/parsing.rs`, `src/element.rs`, `src/item.rs`,
`src/other.rs`, `src/util.rs`), together with theorems settling the
specification's claims about it.

Modelling conventions:

* Rust byte slices (`&[u8]`, `Vec<u8>`) are modelled as `List Nat`
  (each entry a byte value `< 256`; the bound is irrelevant to every
  claim and is not enforced by the type).
* `String::from_utf8` is modelled by `utf8Decode : List Nat → Option String`,
  an executable UTF-8 decoder (`none` models `Err(FromUtf8Error)`).
* The external token source (`quick_xml::Reader`) yields, for a given
  input, a list of `Result<Event, Error>` values; we model the token
  stream itself as `List (Except Error Event)`.  `Event::Eof` is not a
  constructor of our `Event` type: the `EventIterator` in
  `src/parsing.rs` maps `Eof` to `None`, i.e. end-of-stream is simply
  the end of the list, and the recursive calls of `parse_events` only
  ever receive `Eof`-free event lists.
* `quick_xml::events::BytesStart` stores a tag name plus an attribute
  list; its `attributes()` iterator yields `Result<Attribute, _>`
  entries (key and value are byte slices).  We model a `BytesStart` as
  a `StartTag`: the name bytes plus the list the `attributes()`
  iterator would yield (`Except Unit (List Nat × List Nat)` entries).
* `quick_xml::Writer::write_event` is external; it is modelled by
  `renderEventBytes`, which renders one event to bytes in quick_xml's
  canonical form (`<name k="v">`, `</name>`, `<!--c-->`, ...).
* Rust `HashMap<String, String>` iteration order is unspecified; we
  model the map built by `HashMap::from_iter`/`insert` as an
  association list in first-occurrence key order with last-wins
  values, which realises the same lookup function.
-/

namespace Ilex

/-! ## Bytes and UTF-8 (model of `String::from_utf8` / `str` encoding) -/

/-- A byte string (`&[u8]` / `Vec<u8>`). -/
abbrev Bytes := List Nat

/-- Decode one UTF-8 encoded character from the front of a byte list,
returning the character and the remaining bytes.  Models the per-character
step of `String::from_utf8`'s validation (including overlong-encoding and
surrogate rejection). -/
def utf8DecodeChar : Bytes → Option (Char × Bytes)
  | [] => none
  | b0 :: rest =>
    if b0 < 0x80 then
      some (Char.ofNat b0, rest)
    else if b0 < 0xC0 then
      none
    else if b0 < 0xE0 then
      match rest with
      | b1 :: rest1 =>
        if 0x80 ≤ b1 ∧ b1 < 0xC0 then
          if 0x80 ≤ (b0 - 0xC0) * 0x40 + (b1 - 0x80) then
            some (Char.ofNat ((b0 - 0xC0) * 0x40 + (b1 - 0x80)), rest1)
          else none
        else none
      | _ => none
    else if b0 < 0xF0 then
      match rest with
      | b1 :: b2 :: rest2 =>
        if 0x80 ≤ b1 ∧ b1 < 0xC0 ∧ 0x80 ≤ b2 ∧ b2 < 0xC0 then
          if 0x800 ≤ (b0 - 0xE0) * 0x1000 + (b1 - 0x80) * 0x40 + (b2 - 0x80) ∧
              ((b0 - 0xE0) * 0x1000 + (b1 - 0x80) * 0x40 + (b2 - 0x80) < 0xD800 ∨
                0xE000 ≤ (b0 - 0xE0) * 0x1000 + (b1 - 0x80) * 0x40 + (b2 - 0x80)) then
            some (Char.ofNat ((b0 - 0xE0) * 0x1000 + (b1 - 0x80) * 0x40 + (b2 - 0x80)),
              rest2)
          else none
        else none
      | _ => none
    else if b0 < 0xF8 then
      match rest with
      | b1 :: b2 :: b3 :: rest3 =>
        if 0x80 ≤ b1 ∧ b1 < 0xC0 ∧ 0x80 ≤ b2 ∧ b2 < 0xC0 ∧ 0x80 ≤ b3 ∧ b3 < 0xC0 then
          if 0x10000 ≤ (b0 - 0xF0) * 0x40000 + (b1 - 0x80) * 0x1000 +
              (b2 - 0x80) * 0x40 + (b3 - 0x80) ∧
              (b0 - 0xF0) * 0x40000 + (b1 - 0x80) * 0x1000 +
                (b2 - 0x80) * 0x40 + (b3 - 0x80) < 0x110000 then
            some (Char.ofNat ((b0 - 0xF0) * 0x40000 + (b1 - 0x80) * 0x1000 +
              (b2 - 0x80) * 0x40 + (b3 - 0x80)), rest3)
          else none
        else none
      | _ => none
    else none

/-- Fuelled decoding loop: decode all characters.  The fuel is always
instantiated with the length of the byte list, which suffices because each
step consumes at least one byte. -/
def utf8DecodeAux : Nat → Bytes → Option (List Char)
  | _, [] => some []
  | 0, _ :: _ => none
  | fuel + 1, bs =>
    match utf8DecodeChar bs with
    | some (c, rest) => (utf8DecodeAux fuel rest).map (c :: ·)
    | none => none

/-- Model of `String::from_utf8` on a byte list: `none` is `Err(FromUtf8Error)`. -/
def utf8Decode (bs : Bytes) : Option String :=
  (utf8DecodeAux bs.length bs).map List.asString

/-- UTF-8 encoding of one character (model of Rust `str` byte storage). -/
def utf8EncodeChar (c : Char) : Bytes :=
  let n := c.toNat
  if n < 0x80 then [n]
  else if n < 0x800 then [0xC0 + n / 0x40, 0x80 + n % 0x40]
  else if n < 0x10000 then
    [0xE0 + n / 0x1000, 0x80 + n / 0x40 % 0x40, 0x80 + n % 0x40]
  else
    [0xF0 + n / 0x40000, 0x80 + n / 0x1000 % 0x40, 0x80 + n / 0x40 % 0x40, 0x80 + n % 0x40]

/-- UTF-8 encoding of a string (model of `str::as_bytes`). -/
def strBytes (s : String) : Bytes :=
  s.data.flatMap utf8EncodeChar

/-! ## Events, errors, and the item tree -/

/-- One entry of the `BytesStart::attributes()` iterator: either an
attribute (key and value bytes) or an attribute-syntax error
(`Result<Attribute, AttrError>`; the error payload is never inspected by
the crate, only tested with `is_ok`, so it is not modelled). -/
inductive AttrEntry where
  | ok (key : Bytes) (value : Bytes)
  | err
deriving Repr, DecidableEq

/-- Model of `quick_xml::events::BytesStart`: the tag-name bytes together
with the entries its `attributes()` iterator yields. -/
structure StartTag where
  name : Bytes
  attrs : List AttrEntry
deriving Repr, DecidableEq

/-- Model of `quick_xml::events::Event`, minus `Eof` (see the header:
end-of-stream is the end of the token list). `End` carries the tag-name
bytes of the `BytesEnd`. -/
inductive Event where
  | Start (st : StartTag)
  | End (name : Bytes)
  | Empty (st : StartTag)
  | Text (b : Bytes)
  | Comment (b : Bytes)
  | CData (b : Bytes)
  | PI (b : Bytes)
  | Decl (b : Bytes)
  | DocType (b : Bytes)
deriving Repr, DecidableEq

/-- Model of `quick_xml::errors::IllFormedError` (the variants the crate
constructs or that matter to the claims; `OtherIllFormed` stands for the
remaining lexer-produced variants such as `MismatchedEndTag`). -/
inductive IllFormedError where
  | MissingEndTag (name : String)
  | UnmatchedEndTag (name : String)
  | OtherIllFormed (code : Nat)
deriving Repr, DecidableEq

/-- Model of `quick_xml::Error` as used by the crate: `IllFormed` and
`NonDecodable` are the variants `parse_events` itself constructs;
`LexOther` stands for any other lexical error value produced by the
external token source (its `Nat` payload distinguishes distinct errors). -/
inductive Error where
  | IllFormed (e : IllFormedError)
  | NonDecodable
  | LexOther (code : Nat)
deriving Repr, DecidableEq

/-- The item tree (`Item` in `src/item.rs`).  The `Element` constructor
carries the three fields of the `Element` struct of `src/element.rs`
(`element: BytesStart`, `children: Vec<Item>`, `self_closing: bool`);
the leaf constructors each carry the payload bytes of the `Other` value
they wrap in Rust (`Other`'s own constructor tag always coincides with
the `Item` constructor in every value the crate builds, so the wrapper
layer is flattened here). -/
inductive Item where
  | Element (tag : StartTag) (children : List Item) (self_closing : Bool)
  | Comment (b : Bytes)
  | Text (b : Bytes)
  | DocType (b : Bytes)
  | CData (b : Bytes)
  | Decl (b : Bytes)
  | PI (b : Bytes)
deriving Repr

/-! ## Serializer: `GetEvents` (`src/element.rs`, `src/other.rs`, `src/item.rs`) -/

mutual

/-- Model of `impl GetEvents for Item` / `for Element` / `for Other`: the flat event
sequence of one item.  An element that is self-closing and childless emits a
single `Empty` event; otherwise a `Start` event, its children's events, and
an `End` event built by `BytesStart::to_end()` (same name bytes).  Each leaf
emits the single event of its own kind. -/
def itemEvents : Item → List Event
  | .Element st children sc =>
    if sc && children.isEmpty then [Event.Empty st]
    else Event.Start st :: (itemsEvents children ++ [Event.End st.name])
  | .Comment b => [Event.Comment b]
  | .Text b => [Event.Text b]
  | .DocType b => [Event.DocType b]
  | .CData b => [Event.CData b]
  | .Decl b => [Event.Decl b]
  | .PI b => [Event.PI b]

/-- The concatenated event sequences of a list of items
(`children.iter().flat_map(|child| child.get_all_events())`). -/
def itemsEvents : List Item → List Event
  | [] => []
  | i :: is => itemEvents i ++ itemsEvents is

end

/-! ## The external token writer (`quick_xml::Writer::write_event`) -/

/-- Bytes of one rendered attribute: `quick_xml`'s `extend_attributes` /
`Writer` serialize an attribute as ` key="value"`.  Error entries have no
canonical rendering (they only arise from malformed input bytes) and render
as nothing. -/
def renderAttrEntry : AttrEntry → Bytes
  | .ok k v => strBytes " " ++ k ++ strBytes "=\x22" ++ v ++ strBytes "\x22"
  | .err => []

/-- The byte content of a `BytesStart` (name followed by attributes). -/
def startTagBytes (st : StartTag) : Bytes :=
  st.name ++ st.attrs.flatMap renderAttrEntry

/-- Model of the external token writer: the bytes `Writer::write_event`
produces for one event. -/
def renderEventBytes : Event → Bytes
  | .Start st => strBytes "<" ++ startTagBytes st ++ strBytes ">"
  | .End n => strBytes "</" ++ n ++ strBytes ">"
  | .Empty st => strBytes "<" ++ startTagBytes st ++ strBytes "/>"
  | .Text b => b
  | .Comment b => strBytes "<!--" ++ b ++ strBytes "-->"
  | .CData b => strBytes "<![CDATA[" ++ b ++ strBytes "]]>"
  | .PI b => strBytes "<?" ++ b ++ strBytes "?>"
  | .Decl b => strBytes "<?" ++ b ++ strBytes "?>"
  | .DocType b => strBytes "<!DOCTYPE" ++ b ++ strBytes ">"

/-- Model of `to_string_safe` (`impl ToStringSafe for Element` in `src/element.rs`,
and the leaf per-item conversion): write all events of the item through the
token writer and decode the accumulated bytes, failing with `NonDecodable`
exactly when `String::from_utf8` fails.  (For leaves the `ToStringSafe`
impl is in repository code missing from `src/`; modelled from the spec:
"Per-item string conversion producing the serialized form of a single
node", identically to the element case, which writes the item's events and
decodes.) -/
def to_string_safe (it : Item) : Except Error String :=
  match utf8Decode ((itemEvents it).flatMap renderEventBytes) with
  | some s => .ok s
  | none => .error .NonDecodable

/-- Model of `items_to_string` (`src/parsing.rs`): stringify each item with
`to_string_safe`, silently dropping the items whose conversion fails, and
concatenate. -/
def items_to_string (items : List Item) : String :=
  String.join ((items.map to_string_safe).filterMap fun r =>
    match r with
    | .ok s => some s
    | .error _ => none)

/-! ## Tree Builder: `parse_events` (`src/parsing.rs`) -/

/-- The scanning loop inside the `Event::Start` arm of `parse_events`:
starting at nesting depth 1 (Rust initialises `depth = 1`), walk the
remaining token stream, incrementing on `Start`, decrementing on `End`, and
stopping when the depth would reach 0.  Returns the events strictly between
the opening tag and its matching end tag, and the tokens after the end tag —
or `none` when the stream runs out or yields a lexer error first (the Rust
`let Some(Ok(event)) = events.next() else` takes its `else` branch in both
of those cases). -/
def takeUntilMatch (depth : Nat) : List (Except Error Event) →
    Option (List Event × List (Except Error Event))
  | [] => none
  | .error _ :: _ => none
  | .ok e :: rest =>
    match e with
    | .Start _ => (takeUntilMatch (depth + 1) rest).map fun (s, r) => (e :: s, r)
    | .End _ =>
      if depth = 1 then some ([], rest)
      else (takeUntilMatch (depth - 1) rest).map fun (s, r) => (e :: s, r)
    | _ => (takeUntilMatch depth rest).map fun (s, r) => (e :: s, r)

/- The next theorem is stated among the definitions because the
well-founded recursion of `parse_events` needs it: the scanning loop
returns strictly fewer tokens than it consumed. -/

theorem takeUntilMatch_length {d : Nat} {evs : List (Except Error Event)}
    {sub : List Event} {rest : List (Except Error Event)}
    (h : takeUntilMatch d evs = some (sub, rest)) :
    sub.length + rest.length < evs.length := by
  induction evs generalizing d sub rest with
  | nil => simp [takeUntilMatch] at h
  | cons hd tl ih =>
    match hd with
    | .error e => simp [takeUntilMatch] at h
    | .ok e =>
      match e with
      | .Start st =>
        simp only [takeUntilMatch, Option.map_eq_some'] at h
        obtain ⟨⟨s, r⟩, hs, heq⟩ := h
        cases heq
        have := ih hs
        simp_all
        omega
      | .End n =>
        by_cases hd1 : d = 1
        · simp only [takeUntilMatch, hd1, if_pos rfl] at h
          cases h
          simp
        · simp only [takeUntilMatch, if_neg hd1, Option.map_eq_some'] at h
          obtain ⟨⟨s, r⟩, hs, heq⟩ := h
          cases heq
          have := ih hs
          simp_all
          omega
      | .Text b =>
        simp only [takeUntilMatch, Option.map_eq_some'] at h
        obtain ⟨⟨s, r⟩, hs, heq⟩ := h
        cases heq
        have := ih hs
        simp_all
        omega
      | .Comment b =>
        simp only [takeUntilMatch, Option.map_eq_some'] at h
        obtain ⟨⟨s, r⟩, hs, heq⟩ := h
        cases heq
        have := ih hs
        simp_all
        omega
      | .CData b =>
        simp only [takeUntilMatch, Option.map_eq_some'] at h
        obtain ⟨⟨s, r⟩, hs, heq⟩ := h
        cases heq
        have := ih hs
        simp_all
        omega
      | .PI b =>
        simp only [takeUntilMatch, Option.map_eq_some'] at h
        obtain ⟨⟨s, r⟩, hs, heq⟩ := h
        cases heq
        have := ih hs
        simp_all
        omega
      | .Decl b =>
        simp only [takeUntilMatch, Option.map_eq_some'] at h
        obtain ⟨⟨s, r⟩, hs, heq⟩ := h
        cases heq
        have := ih hs
        simp_all
        omega
      | .DocType b =>
        simp only [takeUntilMatch, Option.map_eq_some'] at h
        obtain ⟨⟨s, r⟩, hs, heq⟩ := h
        cases heq
        have := ih hs
        simp_all
        omega
      | .Empty st =>
        simp only [takeUntilMatch, Option.map_eq_some'] at h
        obtain ⟨⟨s, r⟩, hs, heq⟩ := h
        cases heq
        have := ih hs
        simp_all
        omega

/-- Model of `parse_events` (`src/parsing.rs`): build the item tree from the flat
token stream.  Leaf events become leaf items; an `Empty` event becomes a
childless self-closing element; a `Start` event scans for its matching end
tag (`takeUntilMatch`), failing with `MissingEndTag` (named by the opening
tag, or `""` when its name does not decode) when the scan fails, and
otherwise recursively parses the enclosed events into children; an `End`
event at this level fails with `UnmatchedEndTag` (or `NonDecodable` when
its name does not decode); a lexer error at this level is returned as-is. -/
def parse_events : List (Except Error Event) → Except Error (List Item)
  | [] => .ok []
  | .error e :: _ => .error e
  | .ok ev :: rest =>
    match ev with
    | .Text b => (parse_events rest).map (Item.Text b :: ·)
    | .Comment b => (parse_events rest).map (Item.Comment b :: ·)
    | .CData b => (parse_events rest).map (Item.CData b :: ·)
    | .PI b => (parse_events rest).map (Item.PI b :: ·)
    | .Decl b => (parse_events rest).map (Item.Decl b :: ·)
    | .DocType b => (parse_events rest).map (Item.DocType b :: ·)
    | .Empty st => (parse_events rest).map (Item.Element st [] true :: ·)
    | .Start st =>
      match h : takeUntilMatch 1 rest with
      | none =>
        .error (.IllFormed (.MissingEndTag ((utf8Decode st.name).getD "")))
      | some (sub, rest') =>
        match parse_events (sub.map .ok) with
        | .error e => .error e
        | .ok children =>
          (parse_events rest').map (Item.Element st children false :: ·)
    | .End n =>
      match utf8Decode n with
      | some s => .error (.IllFormed (.UnmatchedEndTag s))
      | none => .error .NonDecodable
termination_by evs => evs.length
decreasing_by
  all_goals first
  | (simp; done)
  | (simp; omega)
  | (have hlen := takeUntilMatch_length h; simp; omega)

/-! ## The `Element` struct and its methods (`src/element.rs`) -/

/-- The `Element` struct of `src/element.rs`: the underlying `BytesStart`,
the children, and the self-closing flag.  `Item.Element` carries exactly
these three fields. -/
structure Element where
  element : StartTag
  children : List Item
  self_closing : Bool

/-- The `Item.Element` value of an `Element` struct. -/
def Element.toItem (el : Element) : Item :=
  .Element el.element el.children el.self_closing

/-- Model of `Element::new(name, self_closing)`: a `BytesStart::new(name)` (no
attributes), no children. -/
def Element.new (name : String) (self_closing : Bool) : Element :=
  ⟨⟨strBytes name, []⟩, [], self_closing⟩

mutual

/-- Model of `Element::find_descendants` (`src/element.rs`): the direct children
matching the predicate, followed by, for each child that is an element (in
order), that child's own `find_descendants` result. -/
def Element.find_descendants (p : Item → Bool) : Element → List Item
  | ⟨_, children, _⟩ => children.filter p ++ findDescendantsDeep p children
termination_by el => sizeOf el.children + 1
decreasing_by simp

/-- The `matching_descendants` part of `find_descendants`: filter the
children to elements and flat-map their recursive `find_descendants`. -/
def findDescendantsDeep (p : Item → Bool) : List Item → List Item
  | [] => []
  | .Element st ch sc :: rest =>
    Element.find_descendants p ⟨st, ch, sc⟩ ++ findDescendantsDeep p rest
  | _ :: rest => findDescendantsDeep p rest
termination_by l => sizeOf l
decreasing_by all_goals (simp; try omega)

end

mutual

/-- Model of `Element::get_items_at_depth` (`src/element.rs`).  The Rust method
panics when `depth == 0`; the panic is modelled by `none`.  For
`depth == 1` it returns the direct children; otherwise it filters the
children to elements and flat-maps their items at depth `depth - 1`
(never `0`, so the recursion never panics). -/
def Element.get_items_at_depth (depth : Nat) : Element → Option (List Item)
  | ⟨_, children, _⟩ =>
    if depth = 1 then some children
    else if depth = 0 then none
    else itemsAtDepthDeep (depth - 1) children
termination_by el => sizeOf el.children + 1
decreasing_by simp

/-- The flat-map over element children inside `get_items_at_depth`. -/
def itemsAtDepthDeep (depth : Nat) : List Item → Option (List Item)
  | [] => some []
  | .Element st ch sc :: rest => do
    let xs ← Element.get_items_at_depth depth ⟨st, ch, sc⟩
    let ys ← itemsAtDepthDeep depth rest
    pure (xs ++ ys)
  | _ :: rest => itemsAtDepthDeep depth rest
termination_by l => sizeOf l
decreasing_by all_goals (simp; try omega)

end

mutual

/-- Model of `Element::get_text_content` (`src/element.rs`): collect, over the
children, the decoded payload of `Text` leaves (skipping the ones whose
payload does not decode), the recursive text content of element children,
and nothing for the other kinds, and concatenate. -/
def Element.get_text_content : Element → String
  | ⟨_, children, _⟩ => String.join (textPieces children)
termination_by el => sizeOf el.children + 1
decreasing_by simp

/-- The `filter_map` inside `get_text_content`: one string per retained
child. -/
def textPieces : List Item → List String
  | [] => []
  | .Text b :: rest =>
    (match utf8Decode b with
     | some s => [s]
     | none => []) ++ textPieces rest
  | .Element st ch sc :: rest =>
    Element.get_text_content ⟨st, ch, sc⟩ :: textPieces rest
  | _ :: rest => textPieces rest
termination_by l => sizeOf l
decreasing_by all_goals (simp; try omega)

end

/-- Model of `Element::get_all_attributes` (`src/element.rs`): iterate the
underlying attribute list, skip the error entries, decode key and value,
and skip the pairs where either decode fails. -/
def Element.get_all_attributes (el : Element) : List (String × String) :=
  ((el.element.attrs.filterMap fun a =>
      match a with
      | .ok k v => some (k, v)
      | .err => none).map fun kv => (utf8Decode kv.1, utf8Decode kv.2)).filterMap
    fun p =>
      match p with
      | (some k, some v) => some (k, v)
      | _ => none

/-- Model of `HashMap::insert` semantics on the association-list model of
`HashMap<String, String>`: overwrite the value if the key is present,
append otherwise. -/
def mapInsert (m : List (String × String)) (k v : String) : List (String × String) :=
  if m.any fun p => p.1 = k then m.map fun p => if p.1 = k then (k, v) else p
  else m ++ [(k, v)]

/-- Model of `HashMap::from_iter` on the association-list model: fold `insert`
over the pairs, so later occurrences of a key overwrite earlier ones. -/
def hashMapFromList (l : List (String × String)) : List (String × String) :=
  l.foldl (fun m p => mapInsert m p.1 p.2) []

/-- Lookup in the association-list model of the map (`HashMap::get`). -/
def mapGet (m : List (String × String)) (k : String) : Option String :=
  (m.find? fun p => p.1 = k).map fun p => p.2

/-- Model of `Element::get_attributes` (`src/element.rs`):
`HashMap::from_iter(self.get_all_attributes())`. -/
def Element.get_attributes (el : Element) : List (String × String) :=
  hashMapFromList el.get_all_attributes

/-- Model of `Element::set_attribute` (`src/element.rs`): take the collapsed
attribute map, insert/overwrite the key, clear the underlying attribute
list and rebuild it from the map's entries (each entry re-encoded to
bytes).  The Rust method mutates in place and returns `Ok(())`; the model
returns the updated element (the `Result` is always `Ok`). -/
def Element.set_attribute (el : Element) (k v : String) : Element :=
  let attributes := mapInsert el.get_attributes k v
  { el with
    element :=
      { el.element with
        attrs := attributes.map fun p => .ok (strBytes p.1) (strBytes p.2) } }

/-! ## Well-formed token streams

`WF toks` captures the spec's "well-formed XML" at the token level: leaf
and empty-tag tokens stand alone, and every `Start` token is followed by a
well-formed inner stream and then an `End` token carrying the same name
bytes (a real lexer run with end-name checking enabled yields exactly such
streams on well-formed input). -/

/-- The non-structural token kinds (spec §4.1: "text, comment, CData, PI,
declaration, doctype"). -/

def IsLeaf : Event → Prop
  | .Text _ => True
  | .Comment _ => True
  | .CData _ => True
  | .PI _ => True
  | .Decl _ => True
  | .DocType _ => True
  | _ => False

inductive WF : List Event → Prop where
  | nil : WF []
  | leaf (e : Event) (rest : List Event) : IsLeaf e → WF rest → WF (e :: rest)
  | empty (st : StartTag) (rest : List Event) : WF rest → WF (.Empty st :: rest)
  | node (st : StartTag) (inner rest : List Event) :
      WF inner → WF rest → WF (.Start st :: inner ++ .End st.name :: rest)

instance (l : List Item) : Decidable (l = []) :=
  match l with
  | [] => isTrue rfl
  | _ :: _ => isFalse (by simp)

/-- Specification-side definition (spec §4.3): every strict descendant of
an element (given by its children list) paired with its nesting depth
relative to that element — direct children at depth 1, their children at
depth 2, and so on — listed in document order. -/
def descendantsWithDepth : List Item → List (Nat × Item)
  | [] => []
  | .Element st ch sc :: rest =>
    (1, .Element st ch sc) ::
      (((descendantsWithDepth ch).map fun p => (p.1 + 1, p.2)) ++
        descendantsWithDepth rest)
  | .Comment b :: rest => (1, .Comment b) :: descendantsWithDepth rest
  | .Text b :: rest => (1, .Text b) :: descendantsWithDepth rest
  | .DocType b :: rest => (1, .DocType b) :: descendantsWithDepth rest
  | .CData b :: rest => (1, .CData b) :: descendantsWithDepth rest
  | .Decl b :: rest => (1, .Decl b) :: descendantsWithDepth rest
  | .PI b :: rest => (1, .PI b) :: descendantsWithDepth rest
termination_by l => sizeOf l
decreasing_by all_goals first
  | (simp; done)
  | (simp; omega)

/-- The items of `descendantsWithDepth` recorded at depth `n`, in order. -/
def itemsAtRecordedDepth (n : Nat) (l : List Item) : List Item :=
  ((descendantsWithDepth l).filter fun p => p.1 == n).map Prod.snd

/-- All strict descendants of an element with the given children list, in
document (pre-order) order — the specification-side search domain. -/
def descendantItems (l : List Item) : List Item :=
  (descendantsWithDepth l).map Prod.snd

/-- The element view of an item, when it is one (the `filter_map` used by
`find_descendants` and `get_items_at_depth` to select element children). -/
def elemOf : Item → Option Element
  | .Element st ch sc => some ⟨st, ch, sc⟩
  | _ => none

/-- The predicate "the item is an element" (the example search of the
claim). -/
def isElementItem : Item → Bool
  | .Element _ _ _ => true
  | _ => false

/-- Specification-side definition: the payloads of all `Text` leaves
reachable by depth-first descent through elements, in document order,
skipping every other leaf kind. -/
def textLeavesOf : List Item → List Bytes
  | [] => []
  | .Text b :: rest => b :: textLeavesOf rest
  | .Element _ ch _ :: rest => textLeavesOf ch ++ textLeavesOf rest
  | .Comment _ :: rest => textLeavesOf rest
  | .DocType _ :: rest => textLeavesOf rest
  | .CData _ :: rest => textLeavesOf rest
  | .Decl _ :: rest => textLeavesOf rest
  | .PI _ :: rest => textLeavesOf rest
termination_by l => sizeOf l
decreasing_by all_goals first
  | (simp; done)
  | (simp; omega)

/-- Specification-side decoding of one attribute entry: skip error
entries, decode key and value, skip the pair when either fails. -/
def decodedAttrEntry : AttrEntry → Option (String × String)
  | .ok kb vb =>
    match utf8Decode kb, utf8Decode vb with
    | some k, some v => some (k, v)
    | _, _ => none
  | .err => none

/-- The depth scan over a token list never returns to zero ("the matching
end token never arrives"): starting at nesting depth `d`, scanning the list
never decrements the counter from 1. -/
def neverCloses : Nat → List Event → Bool
  | _, [] => true
  | d, e :: rest =>
    match e with
    | .Start _ => neverCloses (d + 1) rest
    | .End _ => if d = 1 then false else neverCloses (d - 1) rest
    | _ => neverCloses d rest

/-! ### UTF-8 lemmas: encoding/decoding round-trip and concatenation -/

theorem utf8DecodeChar_encode (c : Char) (rest : Bytes) :
    utf8DecodeChar (utf8EncodeChar c ++ rest) = some (c, rest) := by
  have hv : c.toNat < 0xD800 ∨ (0xDFFF < c.toNat ∧ c.toNat < 0x110000) := by
    rcases c.valid with h | ⟨ha, hb⟩
    · left; exact_mod_cast h
    · right; exact ⟨by exact_mod_cast ha, by exact_mod_cast hb⟩
  have hofn : Char.ofNat c.toNat = c := Char.ofNat_toNat c
  by_cases h1 : c.toNat < 0x80
  · simp only [utf8EncodeChar, if_pos h1, List.cons_append, List.nil_append]
    simp only [utf8DecodeChar, if_pos h1, hofn]
  · by_cases h2 : c.toNat < 0x800
    · simp only [utf8EncodeChar, if_neg h1, if_pos h2, List.cons_append, List.nil_append]
      simp only [utf8DecodeChar]
      rw [if_neg (by omega), if_neg (by omega), if_pos (by omega), if_pos (by omega),
        if_pos (by omega)]
      have harith : (0xC0 + c.toNat / 0x40 - 0xC0) * 0x40 + (0x80 + c.toNat % 0x40 - 0x80)
          = c.toNat := by omega
      rw [harith, hofn]
    · by_cases h3 : c.toNat < 0x10000
      · simp only [utf8EncodeChar, if_neg h1, if_neg h2, if_pos h3, List.cons_append,
          List.nil_append]
        simp only [utf8DecodeChar]
        rw [if_neg (by omega), if_neg (by omega), if_neg (by omega), if_pos (by omega),
          if_pos (by omega)]
        · have harith : (0xE0 + c.toNat / 0x1000 - 0xE0) * 0x1000 +
              (0x80 + c.toNat / 0x40 % 0x40 - 0x80) * 0x40 +
              (0x80 + c.toNat % 0x40 - 0x80) = c.toNat := by omega
          rw [harith, hofn]
          rw [if_pos ⟨by omega, by
            rcases hv with h | h
            · exact Or.inl (by omega)
            · exact Or.inr (by omega)⟩]
      · simp only [utf8EncodeChar, if_neg h1, if_neg h2, if_neg h3, List.cons_append,
          List.nil_append]
        simp only [utf8DecodeChar]
        rw [if_neg (by omega), if_neg (by omega), if_neg (by omega), if_neg (by omega),
          if_pos (by omega), if_pos (by omega)]
        have harith : (0xF0 + c.toNat / 0x40000 - 0xF0) * 0x40000 +
            (0x80 + c.toNat / 0x1000 % 0x40 - 0x80) * 0x1000 +
            (0x80 + c.toNat / 0x40 % 0x40 - 0x80) * 0x40 +
            (0x80 + c.toNat % 0x40 - 0x80) = c.toNat := by omega
        rw [harith, hofn]
        rcases hv with h | h
        · omega
        · rw [if_pos (by omega)]

set_option maxRecDepth 4096 in
theorem utf8DecodeChar_props (bs : Bytes) (c : Char) (r : Bytes)
    (h : utf8DecodeChar bs = some (c, r)) :
    r.length < bs.length ∧ ∀ b, utf8DecodeChar (bs ++ b) = some (c, r ++ b) := by
  match bs with
  | [] => simp [utf8DecodeChar] at h
  | b0 :: rest =>
    by_cases g1 : b0 < 0x80
    · simp only [utf8DecodeChar, if_pos g1] at h
      cases h
      refine ⟨by simp_arith, fun b => ?_⟩
      simp only [List.cons_append, utf8DecodeChar, if_pos g1]
    · by_cases g2 : b0 < 0xC0
      · simp only [utf8DecodeChar, if_neg g1, if_pos g2] at h
        exact Option.noConfusion h
      · by_cases g3 : b0 < 0xE0
        · rcases rest with _ | ⟨b1, rest1⟩
          · simp only [utf8DecodeChar, if_neg g1, if_neg g2, if_pos g3] at h
            exact Option.noConfusion h
          · by_cases g4 : 0x80 ≤ b1 ∧ b1 < 0xC0
            · by_cases g5 : 0x80 ≤ (b0 - 0xC0) * 0x40 + (b1 - 0x80)
              · simp only [utf8DecodeChar, if_neg g1, if_neg g2, if_pos g3, if_pos g4, if_pos g5] at h
                cases h
                refine ⟨by simp_arith, fun b => ?_⟩
                simp only [List.cons_append, utf8DecodeChar, if_neg g1, if_neg g2, if_pos g3, if_pos g4, if_pos g5]
              · simp only [utf8DecodeChar, if_neg g1, if_neg g2, if_pos g3, if_pos g4, if_neg g5] at h
                exact Option.noConfusion h
            · simp only [utf8DecodeChar, if_neg g1, if_neg g2, if_pos g3, if_neg g4] at h
              exact Option.noConfusion h
        · by_cases g6 : b0 < 0xF0
          · rcases rest with _ | ⟨b1, rest1⟩
            · simp only [utf8DecodeChar, if_neg g1, if_neg g2, if_neg g3, if_pos g6] at h
              exact Option.noConfusion h
            · rcases rest1 with _ | ⟨b2, rest2⟩
              · simp only [utf8DecodeChar, if_neg g1, if_neg g2, if_neg g3, if_pos g6] at h
                exact Option.noConfusion h
              · by_cases g4 : 0x80 ≤ b1 ∧ b1 < 0xC0 ∧ 0x80 ≤ b2 ∧ b2 < 0xC0
                · by_cases g5 : 0x800 ≤ (b0 - 0xE0) * 0x1000 + (b1 - 0x80) * 0x40 +
                      (b2 - 0x80) ∧
                      ((b0 - 0xE0) * 0x1000 + (b1 - 0x80) * 0x40 + (b2 - 0x80) < 0xD800 ∨
                        0xE000 ≤ (b0 - 0xE0) * 0x1000 + (b1 - 0x80) * 0x40 + (b2 - 0x80))
                  · simp only [utf8DecodeChar, if_neg g1, if_neg g2, if_neg g3, if_pos g6, if_pos g4, if_pos g5] at h
                    cases h
                    refine ⟨by simp_arith, fun b => ?_⟩
                    simp only [List.cons_append, utf8DecodeChar, if_neg g1, if_neg g2, if_neg g3, if_pos g6, if_pos g4, if_pos g5]
                  · simp only [utf8DecodeChar, if_neg g1, if_neg g2, if_neg g3, if_pos g6, if_pos g4, if_neg g5] at h
                    exact Option.noConfusion h
                · simp only [utf8DecodeChar, if_neg g1, if_neg g2, if_neg g3, if_pos g6, if_neg g4] at h
                  exact Option.noConfusion h
          · by_cases g7 : b0 < 0xF8
            · rcases rest with _ | ⟨b1, rest1⟩
              · simp only [utf8DecodeChar, if_neg g1, if_neg g2, if_neg g3, if_neg g6,
                  if_pos g7] at h
                exact Option.noConfusion h
              · rcases rest1 with _ | ⟨b2, rest2⟩
                · simp only [utf8DecodeChar, if_neg g1, if_neg g2, if_neg g3, if_neg g6,
                    if_pos g7] at h
                  exact Option.noConfusion h
                · rcases rest2 with _ | ⟨b3, rest3⟩
                  · simp only [utf8DecodeChar, if_neg g1, if_neg g2, if_neg g3, if_neg g6,
                      if_pos g7] at h
                    exact Option.noConfusion h
                  · by_cases g4 : 0x80 ≤ b1 ∧ b1 < 0xC0 ∧ 0x80 ≤ b2 ∧ b2 < 0xC0 ∧
                        0x80 ≤ b3 ∧ b3 < 0xC0
                    · by_cases g5 : 0x10000 ≤ (b0 - 0xF0) * 0x40000 +
                          (b1 - 0x80) * 0x1000 + (b2 - 0x80) * 0x40 + (b3 - 0x80) ∧
                          (b0 - 0xF0) * 0x40000 + (b1 - 0x80) * 0x1000 +
                            (b2 - 0x80) * 0x40 + (b3 - 0x80) < 0x110000
                      · simp only [utf8DecodeChar, if_neg g1, if_neg g2, if_neg g3, if_neg g6, if_pos g7, if_pos g4, if_pos g5] at h
                        cases h
                        refine ⟨by simp_arith, fun b => ?_⟩
                        simp only [List.cons_append, utf8DecodeChar, if_neg g1, if_neg g2, if_neg g3, if_neg g6, if_pos g7, if_pos g4, if_pos g5]
                      · simp only [utf8DecodeChar, if_neg g1, if_neg g2, if_neg g3, if_neg g6, if_pos g7, if_pos g4, if_neg g5] at h
                        exact Option.noConfusion h
                    · simp only [utf8DecodeChar, if_neg g1, if_neg g2, if_neg g3, if_neg g6, if_pos g7, if_neg g4] at h
                      exact Option.noConfusion h
            · simp only [utf8DecodeChar, if_neg g1, if_neg g2, if_neg g3, if_neg g6,
                if_neg g7] at h
              exact Option.noConfusion h

theorem utf8DecodeAux_mono : ∀ (f : Nat) (bs : Bytes) (cs : List Char),
    utf8DecodeAux f bs = some cs → ∀ f', f ≤ f' → utf8DecodeAux f' bs = some cs := by
  intro f
  induction f with
  | zero =>
    intro bs cs h f' _
    match bs with
    | [] =>
      simp only [utf8DecodeAux] at h
      cases h
      cases f' <;> simp [utf8DecodeAux]
    | b :: rest => simp [utf8DecodeAux] at h
  | succ f ih =>
    intro bs cs h f' hf
    match bs with
    | [] =>
      simp only [utf8DecodeAux] at h
      cases h
      cases f' <;> simp [utf8DecodeAux]
    | b :: rest =>
      match f', hf with
      | f'' + 1, hf =>
        simp only [utf8DecodeAux] at h ⊢
        cases hchar : utf8DecodeChar (b :: rest) with
        | none => rw [hchar] at h; exact Option.noConfusion h
        | some p =>
          obtain ⟨c, r⟩ := p
          rw [hchar] at h
          simp only [Option.map_eq_some'] at h
          obtain ⟨cs', hcs', rfl⟩ := h
          show (utf8DecodeAux f'' r).map (c :: ·) = some (c :: cs')
          rw [ih r cs' hcs' f'' (by omega)]
          rfl

theorem utf8DecodeAux_append : ∀ (fa : Nat) (a : Bytes) (ca : List Char)
    (fb : Nat) (b : Bytes) (cb : List Char),
    utf8DecodeAux fa a = some ca → utf8DecodeAux fb b = some cb →
      utf8DecodeAux (fa + fb) (a ++ b) = some (ca ++ cb) := by
  intro fa
  induction fa with
  | zero =>
    intro a ca fb b cb ha hb
    match a with
    | [] =>
      simp only [utf8DecodeAux] at ha
      cases ha
      simpa using utf8DecodeAux_mono fb b cb hb fb (by omega)
    | x :: rest => simp [utf8DecodeAux] at ha
  | succ fa ih =>
    intro a ca fb b cb ha hb
    match a with
    | [] =>
      simp only [utf8DecodeAux] at ha
      cases ha
      simpa using utf8DecodeAux_mono fb b cb hb (fa + 1 + fb) (by omega)
    | x :: rest =>
      simp only [utf8DecodeAux] at ha
      cases hchar : utf8DecodeChar (x :: rest) with
      | none => rw [hchar] at ha; exact Option.noConfusion ha
      | some p =>
        obtain ⟨c, r⟩ := p
        rw [hchar] at ha
        simp only [Option.map_eq_some'] at ha
        obtain ⟨ca', hca', rfl⟩ := ha
        have happ := (utf8DecodeChar_props _ _ _ hchar).2 b
        have harith : fa + 1 + fb = (fa + fb) + 1 := by omega
        rw [harith]
        rw [show (x :: rest) ++ b = x :: (rest ++ b) from rfl]
        simp only [utf8DecodeAux]
        rw [show (x :: rest) ++ b = x :: (rest ++ b) from rfl] at happ
        rw [happ]
        show (utf8DecodeAux (fa + fb) (r ++ b)).map (c :: ·) = some (c :: ca' ++ cb)
        rw [ih r ca' fb b cb hca' hb]
        rfl

theorem utf8Decode_append (a b : Bytes) (sa sb : String)
    (ha : utf8Decode a = some sa) (hb : utf8Decode b = some sb) :
    utf8Decode (a ++ b) = some (sa ++ sb) := by
  simp only [utf8Decode, Option.map_eq_some'] at ha hb
  obtain ⟨ca, hca, rfl⟩ := ha
  obtain ⟨cb, hcb, rfl⟩ := hb
  have := utf8DecodeAux_append a.length a ca b.length b cb hca hcb
  simp only [utf8Decode, List.length_append, this]
  rfl

theorem utf8EncodeChar_length_pos (c : Char) : 1 ≤ (utf8EncodeChar c).length := by
  simp only [utf8EncodeChar]
  split_ifs <;> simp

theorem utf8DecodeAux_encode : ∀ (cs : List Char) (f : Nat),
    (cs.flatMap utf8EncodeChar).length ≤ f →
      utf8DecodeAux f (cs.flatMap utf8EncodeChar) = some cs := by
  intro cs
  induction cs with
  | nil =>
    intro f _
    simp [utf8DecodeAux]
  | cons c cs ih =>
    intro f hf
    have hlen := utf8EncodeChar_length_pos c
    simp only [List.flatMap_cons, List.length_append] at hf
    have hdec := utf8DecodeChar_encode c (cs.flatMap utf8EncodeChar)
    rcases henc : utf8EncodeChar c with _ | ⟨x, xs⟩
    · rw [henc] at hlen
      simp at hlen
    · rw [henc] at hdec hf
      simp only [List.length_cons] at hf
      match f, hf with
      | 0, hf => exact absurd hf (by omega)
      | f' + 1, hf =>
        simp only [List.flatMap_cons, henc, List.cons_append, utf8DecodeAux]
        rw [List.cons_append] at hdec
        rw [hdec]
        show (utf8DecodeAux f' (cs.flatMap utf8EncodeChar)).map (c :: ·) = some (c :: cs)
        rw [ih f' (by omega)]
        rfl

theorem utf8Decode_strBytes (s : String) : utf8Decode (strBytes s) = some s := by
  obtain ⟨d⟩ := s
  simp only [utf8Decode, strBytes]
  rw [utf8DecodeAux_encode d (d.flatMap utf8EncodeChar).length (le_refl _)]
  rfl

/-! ## Equation lemmas for `parse_events` (one per token shape) -/

theorem parse_events_nil : parse_events [] = .ok [] := by
  simp [parse_events]

theorem parse_events_error (e : Error) (rest : List (Except Error Event)) :
    parse_events (.error e :: rest) = .error e := by
  simp [parse_events]

theorem parse_events_text (b : Bytes) (rest : List (Except Error Event)) :
    parse_events (.ok (.Text b) :: rest) = (parse_events rest).map (Item.Text b :: ·) := by
  simp [parse_events]

theorem parse_events_comment (b : Bytes) (rest : List (Except Error Event)) :
    parse_events (.ok (.Comment b) :: rest) = (parse_events rest).map (Item.Comment b :: ·) := by
  simp [parse_events]

theorem parse_events_cdata (b : Bytes) (rest : List (Except Error Event)) :
    parse_events (.ok (.CData b) :: rest) = (parse_events rest).map (Item.CData b :: ·) := by
  simp [parse_events]

theorem parse_events_pi (b : Bytes) (rest : List (Except Error Event)) :
    parse_events (.ok (.PI b) :: rest) = (parse_events rest).map (Item.PI b :: ·) := by
  simp [parse_events]

theorem parse_events_decl (b : Bytes) (rest : List (Except Error Event)) :
    parse_events (.ok (.Decl b) :: rest) = (parse_events rest).map (Item.Decl b :: ·) := by
  simp [parse_events]

theorem parse_events_doctype (b : Bytes) (rest : List (Except Error Event)) :
    parse_events (.ok (.DocType b) :: rest) = (parse_events rest).map (Item.DocType b :: ·) := by
  simp [parse_events]

theorem parse_events_empty (st : StartTag) (rest : List (Except Error Event)) :
    parse_events (.ok (.Empty st) :: rest) = (parse_events rest).map (Item.Element st [] true :: ·) := by
  simp [parse_events]

theorem parse_events_start_none (st : StartTag) (rest : List (Except Error Event))
    (h : takeUntilMatch 1 rest = none) :
    parse_events (.ok (.Start st) :: rest) =
      .error (.IllFormed (.MissingEndTag ((utf8Decode st.name).getD ""))) := by
  simp only [parse_events]
  split
  · rfl
  · rename_i sub rest' heq
    rw [h] at heq
    cases heq

theorem parse_events_start_some (st : StartTag) (rest : List (Except Error Event))
    (sub : List Event) (rest' : List (Except Error Event))
    (h : takeUntilMatch 1 rest = some (sub, rest')) :
    parse_events (.ok (.Start st) :: rest) =
      match parse_events (sub.map .ok) with
      | .error e => .error e
      | .ok children => (parse_events rest').map (Item.Element st children false :: ·) := by
  simp only [parse_events]
  split
  · rename_i heq
    rw [h] at heq
    cases heq
  · rename_i sub1 rest1 heq
    rw [h] at heq
    cases heq
    rfl

theorem parse_events_end (n : Bytes) (rest : List (Except Error Event)) :
    parse_events (.ok (.End n) :: rest) =
      match utf8Decode n with
      | some s => Except.error (.IllFormed (.UnmatchedEndTag s))
      | none => .error .NonDecodable := by
  simp [parse_events]

theorem takeUntilMatch_append {l : List Event} (hwf : WF l) :
    ∀ d (tail : List (Except Error Event)), 1 ≤ d →
      takeUntilMatch d (l.map .ok ++ tail) =
        (takeUntilMatch d tail).map fun (s, r) => (l ++ s, r) := by
  induction hwf with
  | nil =>
    intro d tail _
    simp only [List.map_nil, List.nil_append]
    cases htail : takeUntilMatch d tail with
    | none => rfl
    | some p => cases p; rfl
  | leaf e rest hleaf _ ih =>
    intro d tail hd
    cases e <;> simp only [IsLeaf] at hleaf <;>
      simp [takeUntilMatch, ih d tail hd, Option.map_map, Function.comp_def]
  | empty st rest _ ih =>
    intro d tail hd
    simp [takeUntilMatch, ih d tail hd, Option.map_map, Function.comp_def]
  | node st inner rest _ _ ih_inner ih_rest =>
    intro d tail hd
    have hshape : (Event.Start st :: inner ++ Event.End st.name :: rest).map
          (Except.ok : Event → Except Error Event) ++ tail =
        Except.ok (Event.Start st) :: (inner.map Except.ok ++
          (Except.ok (Event.End st.name) :: (rest.map Except.ok ++ tail))) := by
      simp
    rw [hshape]
    simp only [takeUntilMatch]
    rw [ih_inner (d + 1) _ (by omega)]
    simp only [takeUntilMatch]
    rw [if_neg (by omega : ¬(d + 1 = 1))]
    have hd1 : d + 1 - 1 = d := by omega
    rw [hd1, ih_rest d tail hd]
    cases takeUntilMatch d tail with
    | none => rfl
    | some p => cases p; simp

theorem parse_events_wf_append {l : List Event} (hwf : WF l) :
    ∀ tail : List (Except Error Event), ∃ items : List Item,
      parse_events (l.map .ok ++ tail) = (parse_events tail).map (items ++ ·) ∧
        itemsEvents items = l := by
  induction hwf with
  | nil =>
    intro tail
    refine ⟨[], ?_, rfl⟩
    simp only [List.map_nil, List.nil_append]
    cases parse_events tail <;> rfl
  | leaf e rest hleaf _ ih =>
    intro tail
    obtain ⟨items, hparse, hevents⟩ := ih tail
    cases e <;> simp only [IsLeaf] at hleaf
    case Text b =>
      refine ⟨Item.Text b :: items, ?_, ?_⟩
      · simp only [List.map_cons, List.cons_append, parse_events_text, hparse]
        cases parse_events tail <;> rfl
      · simp [itemsEvents, itemEvents, hevents]
    case Comment b =>
      refine ⟨Item.Comment b :: items, ?_, ?_⟩
      · simp only [List.map_cons, List.cons_append, parse_events_comment, hparse]
        cases parse_events tail <;> rfl
      · simp [itemsEvents, itemEvents, hevents]
    case CData b =>
      refine ⟨Item.CData b :: items, ?_, ?_⟩
      · simp only [List.map_cons, List.cons_append, parse_events_cdata, hparse]
        cases parse_events tail <;> rfl
      · simp [itemsEvents, itemEvents, hevents]
    case PI b =>
      refine ⟨Item.PI b :: items, ?_, ?_⟩
      · simp only [List.map_cons, List.cons_append, parse_events_pi, hparse]
        cases parse_events tail <;> rfl
      · simp [itemsEvents, itemEvents, hevents]
    case Decl b =>
      refine ⟨Item.Decl b :: items, ?_, ?_⟩
      · simp only [List.map_cons, List.cons_append, parse_events_decl, hparse]
        cases parse_events tail <;> rfl
      · simp [itemsEvents, itemEvents, hevents]
    case DocType b =>
      refine ⟨Item.DocType b :: items, ?_, ?_⟩
      · simp only [List.map_cons, List.cons_append, parse_events_doctype, hparse]
        cases parse_events tail <;> rfl
      · simp [itemsEvents, itemEvents, hevents]
  | empty st rest _ ih =>
    intro tail
    obtain ⟨items, hparse, hevents⟩ := ih tail
    refine ⟨Item.Element st [] true :: items, ?_, ?_⟩
    · simp only [List.map_cons, List.cons_append, parse_events_empty, hparse]
      cases parse_events tail <;> rfl
    · simp [itemsEvents, itemEvents, hevents]
  | node st inner rest hwf_inner _ ih_inner ih_rest =>
    intro tail
    obtain ⟨items_r, hparse_r, hevents_r⟩ := ih_rest tail
    obtain ⟨items_i, hparse_i, hevents_i⟩ := ih_inner []
    rw [List.append_nil] at hparse_i
    have hparse_i' : parse_events (inner.map .ok) = .ok items_i := by
      rw [hparse_i, parse_events_nil]
      simp [Except.map]
    have hscan : takeUntilMatch 1 (inner.map .ok ++
        (Except.ok (Event.End st.name) :: (rest.map .ok ++ tail))) =
        some (inner, rest.map .ok ++ tail) := by
      rw [takeUntilMatch_append hwf_inner 1 _ (by omega)]
      simp [takeUntilMatch]
    refine ⟨Item.Element st items_i false :: items_r, ?_, ?_⟩
    · have hshape : (Event.Start st :: inner ++ Event.End st.name :: rest).map
            (Except.ok : Event → Except Error Event) ++ tail =
          Except.ok (Event.Start st) :: (inner.map Except.ok ++
            (Except.ok (Event.End st.name) :: (rest.map Except.ok ++ tail))) := by
        simp
      rw [hshape, parse_events_start_some st _ inner (rest.map .ok ++ tail) hscan,
        hparse_i', hparse_r]
      cases parse_events tail <;> rfl
    · simp [itemsEvents, itemEvents, hevents_i, hevents_r]

/-! ## Claim C7: serialization of items to tokens -/

/-- The worker `itemsEvents` is the flat-map of `itemEvents` over the children. -/
theorem itemsEvents_eq_flatMap : ∀ l : List Item, itemsEvents l = l.flatMap itemEvents
  | [] => by simp [itemsEvents]
  | i :: is => by simp [itemsEvents, itemsEvents_eq_flatMap is]

/-- C7.  Serialization of an `Item` to tokens: an element that is not
self-closing or that has children emits a start token, the concatenation of
its children's token sequences, and an end token with the same name; a
self-closing childless element emits a single empty token; each leaf kind
emits exactly one token of its own kind carrying its payload.  Concretely,
a childless self-closing element renders as `<tag/>`, and the same element
with one child appended emits explicit open/close tokens despite the flag. -/
theorem C7_serializer_events :
    (∀ st children sc, itemEvents (.Element st children sc) =
        if sc = true ∧ children = [] then [Event.Empty st]
        else Event.Start st :: (children.flatMap itemEvents ++ [Event.End st.name])) ∧
    (∀ b, itemEvents (.Text b) = [Event.Text b]) ∧
    (∀ b, itemEvents (.Comment b) = [Event.Comment b]) ∧
    (∀ b, itemEvents (.CData b) = [Event.CData b]) ∧
    (∀ b, itemEvents (.PI b) = [Event.PI b]) ∧
    (∀ b, itemEvents (.Decl b) = [Event.Decl b]) ∧
    (∀ b, itemEvents (.DocType b) = [Event.DocType b]) ∧
    to_string_safe (Element.new "tag" true).toItem = .ok "<tag/>" ∧
    (∀ child, itemEvents (.Element ⟨strBytes "tag", []⟩ [child] true) =
        Event.Start ⟨strBytes "tag", []⟩ :: (itemEvents child ++ [Event.End (strBytes "tag")])) ∧
    to_string_safe (.Element ⟨strBytes "tag", []⟩ [.Text (strBytes "x")] true) =
      .ok "<tag>x</tag>" := by
  refine ⟨?_, fun b => by simp [itemEvents], fun b => by simp [itemEvents],
    fun b => by simp [itemEvents], fun b => by simp [itemEvents],
    fun b => by simp [itemEvents], fun b => by simp [itemEvents], ?_, ?_, ?_⟩
  · intro st children sc
    cases sc <;> cases children <;>
      simp [itemEvents, itemsEvents_eq_flatMap]
  · rfl
  · intro child
    simp [itemEvents, itemsEvents, itemsEvents_eq_flatMap]
  · rfl

/-! ## Claim C5: depth-indexed retrieval -/

/-- Every depth recorded by `descendantsWithDepth` is at least 1. -/
theorem descendantsWithDepth_pos :
    ∀ (l : List Item) p, p ∈ descendantsWithDepth l → 1 ≤ p.1
  | [], p => by simp [descendantsWithDepth]
  | .Element st ch sc :: rest, p => by
    rw [descendantsWithDepth]
    intro hmem
    rcases List.mem_cons.mp hmem with h | h
    · subst h; simp
    · rcases List.mem_append.mp h with h | h
      · simp only [List.mem_map] at h
        obtain ⟨q, _, hq⟩ := h
        subst hq
        simp
      · exact descendantsWithDepth_pos rest p h
  | .Comment b :: rest, p => by
    rw [descendantsWithDepth]
    intro hmem
    rcases List.mem_cons.mp hmem with h | h
    · subst h; simp
    · exact descendantsWithDepth_pos rest p h
  | .Text b :: rest, p => by
    rw [descendantsWithDepth]
    intro hmem
    rcases List.mem_cons.mp hmem with h | h
    · subst h; simp
    · exact descendantsWithDepth_pos rest p h
  | .DocType b :: rest, p => by
    rw [descendantsWithDepth]
    intro hmem
    rcases List.mem_cons.mp hmem with h | h
    · subst h; simp
    · exact descendantsWithDepth_pos rest p h
  | .CData b :: rest, p => by
    rw [descendantsWithDepth]
    intro hmem
    rcases List.mem_cons.mp hmem with h | h
    · subst h; simp
    · exact descendantsWithDepth_pos rest p h
  | .Decl b :: rest, p => by
    rw [descendantsWithDepth]
    intro hmem
    rcases List.mem_cons.mp hmem with h | h
    · subst h; simp
    · exact descendantsWithDepth_pos rest p h
  | .PI b :: rest, p => by
    rw [descendantsWithDepth]
    intro hmem
    rcases List.mem_cons.mp hmem with h | h
    · subst h; simp
    · exact descendantsWithDepth_pos rest p h
termination_by l => sizeOf l
decreasing_by all_goals first
  | (simp; done)
  | (simp; omega)

/-- A mapped-up subtree contributes nothing at depth 1. -/
theorem filter_one_map_up (l : List (Nat × Item)) (hpos : ∀ p ∈ l, 1 ≤ p.1) :
    (l.map fun p => (p.1 + 1, p.2)).filter (fun p => p.1 == 1) = [] := by
  rw [List.filter_eq_nil_iff]
  intro q hq
  simp only [List.mem_map] at hq
  obtain ⟨r, hr, hrq⟩ := hq
  have := hpos r hr
  subst hrq
  simp
  omega

/-- Depth-1 entries of `descendantsWithDepth` are exactly the direct
children, in order. -/
theorem itemsAtRecordedDepth_one :
    ∀ l : List Item, itemsAtRecordedDepth 1 l = l
  | [] => by simp [itemsAtRecordedDepth, descendantsWithDepth]
  | .Element st ch sc :: rest => by
    have ih := itemsAtRecordedDepth_one rest
    simp only [itemsAtRecordedDepth] at ih ⊢
    rw [descendantsWithDepth, List.filter_cons, List.filter_append,
      filter_one_map_up _ (descendantsWithDepth_pos ch)]
    simp [ih]
  | .Comment b :: rest => by
    have ih := itemsAtRecordedDepth_one rest
    simp only [itemsAtRecordedDepth] at ih ⊢
    rw [descendantsWithDepth, List.filter_cons]
    simp [ih]
  | .Text b :: rest => by
    have ih := itemsAtRecordedDepth_one rest
    simp only [itemsAtRecordedDepth] at ih ⊢
    rw [descendantsWithDepth, List.filter_cons]
    simp [ih]
  | .DocType b :: rest => by
    have ih := itemsAtRecordedDepth_one rest
    simp only [itemsAtRecordedDepth] at ih ⊢
    rw [descendantsWithDepth, List.filter_cons]
    simp [ih]
  | .CData b :: rest => by
    have ih := itemsAtRecordedDepth_one rest
    simp only [itemsAtRecordedDepth] at ih ⊢
    rw [descendantsWithDepth, List.filter_cons]
    simp [ih]
  | .Decl b :: rest => by
    have ih := itemsAtRecordedDepth_one rest
    simp only [itemsAtRecordedDepth] at ih ⊢
    rw [descendantsWithDepth, List.filter_cons]
    simp [ih]
  | .PI b :: rest => by
    have ih := itemsAtRecordedDepth_one rest
    simp only [itemsAtRecordedDepth] at ih ⊢
    rw [descendantsWithDepth, List.filter_cons]
    simp [ih]
termination_by l => sizeOf l
decreasing_by all_goals first
  | (simp; done)
  | (simp; omega)

mutual

/-- For `n ≥ 1`, `get_items_at_depth n` returns exactly the descendants at
recorded depth `n`, in document order. -/
theorem get_items_at_depth_spec (st : StartTag) (children : List Item) (sc : Bool)
    (n : Nat) (hn : 1 ≤ n) :
    Element.get_items_at_depth n ⟨st, children, sc⟩ =
      some (itemsAtRecordedDepth n children) := by
  by_cases h1 : n = 1
  · subst h1
    rw [Element.get_items_at_depth, if_pos rfl, itemsAtRecordedDepth_one children]
  · rw [Element.get_items_at_depth, if_neg h1, if_neg (by omega)]
    rw [itemsAtDepthDeep_spec children (n - 1) (by omega)]
    congr 1
    have hfix : n - 1 + 1 = n := by omega
    rw [hfix]
termination_by sizeOf children + 1
decreasing_by simp

/-- The inner flat-map of `get_items_at_depth` collects, for depth `d ≥ 1`,
the entries recorded at depth `d + 1`. -/
theorem itemsAtDepthDeep_spec (l : List Item) (d : Nat) (hd : 1 ≤ d) :
    itemsAtDepthDeep d l = some (itemsAtRecordedDepth (d + 1) l) := by
  have hne : ((1 : Nat) == d + 1) = false := by
    simp
    omega
  match l with
  | [] => simp [itemsAtDepthDeep, itemsAtRecordedDepth, descendantsWithDepth]
  | .Element st ch sc :: rest =>
    rw [itemsAtDepthDeep, get_items_at_depth_spec st ch sc d hd,
      itemsAtDepthDeep_spec rest d hd]
    simp only [Option.some_bind, itemsAtRecordedDepth, descendantsWithDepth,
      List.filter_cons, List.filter_append, hne, List.filter_map, List.map_append,
      List.map_map]
    congr 2
    · rw [← List.filter_map]
      have hfil : ((descendantsWithDepth ch).map fun p => (p.1 + 1, p.2)).filter
          (fun p => p.1 == d + 1) =
          ((descendantsWithDepth ch).filter fun p => p.1 == d).map
            fun p => (p.1 + 1, p.2) := by
        rw [List.filter_map]
        congr 1
        apply List.filter_congr
        intro p _
        simp only [Function.comp_apply]
        first
        | (simp; done)
        | (simp; omega)
      rw [hfil]
      simp [List.map_map, Function.comp_def]
  | .Text b :: rest =>
    simp only [itemsAtDepthDeep]
    rw [itemsAtDepthDeep_spec rest d hd]
    simp [itemsAtRecordedDepth, descendantsWithDepth, List.filter_cons, hne]
  | .Comment b :: rest =>
    simp only [itemsAtDepthDeep]
    rw [itemsAtDepthDeep_spec rest d hd]
    simp [itemsAtRecordedDepth, descendantsWithDepth, List.filter_cons, hne]
  | .DocType b :: rest =>
    simp only [itemsAtDepthDeep]
    rw [itemsAtDepthDeep_spec rest d hd]
    simp [itemsAtRecordedDepth, descendantsWithDepth, List.filter_cons, hne]
  | .CData b :: rest =>
    simp only [itemsAtDepthDeep]
    rw [itemsAtDepthDeep_spec rest d hd]
    simp [itemsAtRecordedDepth, descendantsWithDepth, List.filter_cons, hne]
  | .Decl b :: rest =>
    simp only [itemsAtDepthDeep]
    rw [itemsAtDepthDeep_spec rest d hd]
    simp [itemsAtRecordedDepth, descendantsWithDepth, List.filter_cons, hne]
  | .PI b :: rest =>
    simp only [itemsAtDepthDeep]
    rw [itemsAtDepthDeep_spec rest d hd]
    simp [itemsAtRecordedDepth, descendantsWithDepth, List.filter_cons, hne]
termination_by sizeOf l
decreasing_by all_goals first
  | (simp; done)
  | (simp; omega)

end

/-- C5.  For every element and every `n ≥ 1`, `get_items_at_depth n`
returns exactly the items reachable by descending exactly `n` element
boundaries from the queried element, in document order (`n = 1` gives the
direct children); `get_items_at_depth 0` fails fast (the Rust method
panics; the panic is modelled by `none`) instead of returning a value. -/
theorem C5_get_items_at_depth (el : Element) :
    Element.get_items_at_depth 0 el = none ∧
    ∀ n, 1 ≤ n →
      Element.get_items_at_depth n el = some (itemsAtRecordedDepth n el.children) := by
  obtain ⟨st, children, sc⟩ := el
  constructor
  · rw [Element.get_items_at_depth]
    simp
  · intro n hn
    exact get_items_at_depth_spec st children sc n hn

/-- Witness for C5 at a concrete tree
`<e><a><b>t</b></a></e>` queried at depths 0 and 2. -/
theorem C5_get_items_at_depth_witness :
    Element.get_items_at_depth 0
        ⟨⟨strBytes "e", []⟩,
          [.Element ⟨strBytes "a", []⟩
            [.Element ⟨strBytes "b", []⟩ [.Text (strBytes "t")] false] false],
          false⟩ = none ∧
    Element.get_items_at_depth 2
        ⟨⟨strBytes "e", []⟩,
          [.Element ⟨strBytes "a", []⟩
            [.Element ⟨strBytes "b", []⟩ [.Text (strBytes "t")] false] false],
          false⟩ =
      some [.Element ⟨strBytes "b", []⟩ [.Text (strBytes "t")] false] := by
  refine ⟨(C5_get_items_at_depth _).1, ?_⟩
  rw [(C5_get_items_at_depth _).2 2 (by decide)]
  simp [itemsAtRecordedDepth, descendantsWithDepth]

/-! ## Claim C6: predicate-based descendant search -/

/-- Unfolding `descendantItems` at an element head: the element itself, then its own
descendants, then the rest. -/
theorem descendantItems_cons_elem (st : StartTag) (ch : List Item) (sc : Bool)
    (rest : List Item) :
    descendantItems (.Element st ch sc :: rest) =
      .Element st ch sc :: (descendantItems ch ++ descendantItems rest) := by
  simp [descendantItems, descendantsWithDepth, List.map_map, Function.comp_def]

/-- Unfolding `descendantItems` at a `Comment` leaf head. -/
theorem descendantItems_cons_comment (b : Bytes) (rest : List Item) :
    descendantItems (.Comment b :: rest) = .Comment b :: descendantItems rest := by
  simp [descendantItems, descendantsWithDepth]

/-- Unfolding `descendantItems` at a `Text` leaf head. -/
theorem descendantItems_cons_text (b : Bytes) (rest : List Item) :
    descendantItems (.Text b :: rest) = .Text b :: descendantItems rest := by
  simp [descendantItems, descendantsWithDepth]

/-- Unfolding `descendantItems` at a `DocType` leaf head. -/
theorem descendantItems_cons_doctype (b : Bytes) (rest : List Item) :
    descendantItems (.DocType b :: rest) = .DocType b :: descendantItems rest := by
  simp [descendantItems, descendantsWithDepth]

/-- Unfolding `descendantItems` at a `CData` leaf head. -/
theorem descendantItems_cons_cdata (b : Bytes) (rest : List Item) :
    descendantItems (.CData b :: rest) = .CData b :: descendantItems rest := by
  simp [descendantItems, descendantsWithDepth]

/-- Unfolding `descendantItems` at a `Decl` leaf head. -/
theorem descendantItems_cons_decl (b : Bytes) (rest : List Item) :
    descendantItems (.Decl b :: rest) = .Decl b :: descendantItems rest := by
  simp [descendantItems, descendantsWithDepth]

/-- Unfolding `descendantItems` at a `PI` leaf head. -/
theorem descendantItems_cons_pi (b : Bytes) (rest : List Item) :
    descendantItems (.PI b :: rest) = .PI b :: descendantItems rest := by
  simp [descendantItems, descendantsWithDepth]

/-- Membership in the descendant list unfolds to: a direct child, or a
descendant of an element child. -/
theorem mem_descendantItems (x : Item) :
    ∀ l : List Item, x ∈ descendantItems l ↔
      x ∈ l ∨ ∃ st ch sc, Item.Element st ch sc ∈ l ∧ x ∈ descendantItems ch := by
  intro l
  induction l with
  | nil => simp [descendantItems, descendantsWithDepth]
  | cons it rest ih =>
    match it with
    | .Element st ch sc =>
      rw [descendantItems_cons_elem]
      simp only [List.mem_cons, List.mem_append, ih]
      constructor
      · rintro (h | h | h | h)
        · exact Or.inl (Or.inl h)
        · exact Or.inr ⟨st, ch, sc, Or.inl rfl, h⟩
        · exact Or.inl (Or.inr h)
        · obtain ⟨st', ch', sc', hm, hx⟩ := h
          exact Or.inr ⟨st', ch', sc', Or.inr hm, hx⟩
      · rintro (h | h)
        · rcases h with h | h
          · exact Or.inl h
          · exact Or.inr (Or.inr (Or.inl h))
        · obtain ⟨st', ch', sc', hm, hx⟩ := h
          rcases hm with heq | hm
          · cases heq
            exact Or.inr (Or.inl hx)
          · exact Or.inr (Or.inr (Or.inr ⟨st', ch', sc', hm, hx⟩))
    | .Comment b =>
      rw [descendantItems_cons_comment]
      simp only [List.mem_cons, ih]
      constructor
      · rintro (h | h | h)
        · exact Or.inl (Or.inl h)
        · exact Or.inl (Or.inr h)
        · obtain ⟨st', ch', sc', hm, hx⟩ := h
          exact Or.inr ⟨st', ch', sc', Or.inr hm, hx⟩
      · rintro (h | h)
        · rcases h with h | h
          · exact Or.inl h
          · exact Or.inr (Or.inl h)
        · obtain ⟨st', ch', sc', hm, hx⟩ := h
          rcases hm with heq | hm
          · cases heq
          · exact Or.inr (Or.inr ⟨st', ch', sc', hm, hx⟩)

    | .Text b =>
      rw [descendantItems_cons_text]
      simp only [List.mem_cons, ih]
      constructor
      · rintro (h | h | h)
        · exact Or.inl (Or.inl h)
        · exact Or.inl (Or.inr h)
        · obtain ⟨st', ch', sc', hm, hx⟩ := h
          exact Or.inr ⟨st', ch', sc', Or.inr hm, hx⟩
      · rintro (h | h)
        · rcases h with h | h
          · exact Or.inl h
          · exact Or.inr (Or.inl h)
        · obtain ⟨st', ch', sc', hm, hx⟩ := h
          rcases hm with heq | hm
          · cases heq
          · exact Or.inr (Or.inr ⟨st', ch', sc', hm, hx⟩)

    | .DocType b =>
      rw [descendantItems_cons_doctype]
      simp only [List.mem_cons, ih]
      constructor
      · rintro (h | h | h)
        · exact Or.inl (Or.inl h)
        · exact Or.inl (Or.inr h)
        · obtain ⟨st', ch', sc', hm, hx⟩ := h
          exact Or.inr ⟨st', ch', sc', Or.inr hm, hx⟩
      · rintro (h | h)
        · rcases h with h | h
          · exact Or.inl h
          · exact Or.inr (Or.inl h)
        · obtain ⟨st', ch', sc', hm, hx⟩ := h
          rcases hm with heq | hm
          · cases heq
          · exact Or.inr (Or.inr ⟨st', ch', sc', hm, hx⟩)

    | .CData b =>
      rw [descendantItems_cons_cdata]
      simp only [List.mem_cons, ih]
      constructor
      · rintro (h | h | h)
        · exact Or.inl (Or.inl h)
        · exact Or.inl (Or.inr h)
        · obtain ⟨st', ch', sc', hm, hx⟩ := h
          exact Or.inr ⟨st', ch', sc', Or.inr hm, hx⟩
      · rintro (h | h)
        · rcases h with h | h
          · exact Or.inl h
          · exact Or.inr (Or.inl h)
        · obtain ⟨st', ch', sc', hm, hx⟩ := h
          rcases hm with heq | hm
          · cases heq
          · exact Or.inr (Or.inr ⟨st', ch', sc', hm, hx⟩)

    | .Decl b =>
      rw [descendantItems_cons_decl]
      simp only [List.mem_cons, ih]
      constructor
      · rintro (h | h | h)
        · exact Or.inl (Or.inl h)
        · exact Or.inl (Or.inr h)
        · obtain ⟨st', ch', sc', hm, hx⟩ := h
          exact Or.inr ⟨st', ch', sc', Or.inr hm, hx⟩
      · rintro (h | h)
        · rcases h with h | h
          · exact Or.inl h
          · exact Or.inr (Or.inl h)
        · obtain ⟨st', ch', sc', hm, hx⟩ := h
          rcases hm with heq | hm
          · cases heq
          · exact Or.inr (Or.inr ⟨st', ch', sc', hm, hx⟩)

    | .PI b =>
      rw [descendantItems_cons_pi]
      simp only [List.mem_cons, ih]
      constructor
      · rintro (h | h | h)
        · exact Or.inl (Or.inl h)
        · exact Or.inl (Or.inr h)
        · obtain ⟨st', ch', sc', hm, hx⟩ := h
          exact Or.inr ⟨st', ch', sc', Or.inr hm, hx⟩
      · rintro (h | h)
        · rcases h with h | h
          · exact Or.inl h
          · exact Or.inr (Or.inl h)
        · obtain ⟨st', ch', sc', hm, hx⟩ := h
          rcases hm with heq | hm
          · cases heq
          · exact Or.inr (Or.inr ⟨st', ch', sc', hm, hx⟩)

mutual

/-- Completeness and soundness of `find_descendants` on an element: a
member of the result is exactly a descendant satisfying the predicate. -/
theorem find_descendants_mem (p : Item → Bool) (x : Item) (st : StartTag)
    (children : List Item) (sc : Bool) :
    x ∈ Element.find_descendants p ⟨st, children, sc⟩ ↔
      x ∈ descendantItems children ∧ p x = true := by
  rw [Element.find_descendants]
  simp only [List.mem_append, List.mem_filter]
  rw [findDescendantsDeep_mem p x children, mem_descendantItems]
  constructor
  · rintro (⟨hm, hp⟩ | ⟨hp, st', ch', sc', hm, hx⟩)
    · exact ⟨Or.inl hm, hp⟩
    · exact ⟨Or.inr ⟨st', ch', sc', hm, hx⟩, hp⟩
  · rintro ⟨h | h, hp⟩
    · exact Or.inl ⟨h, hp⟩
    · obtain ⟨st', ch', sc', hm, hx⟩ := h
      exact Or.inr ⟨hp, st', ch', sc', hm, hx⟩
termination_by sizeOf children + 1
decreasing_by simp

/-- Membership in the deep part of the search: a match found inside some
element child. -/
theorem findDescendantsDeep_mem (p : Item → Bool) (x : Item) :
    ∀ l : List Item, x ∈ findDescendantsDeep p l ↔
      p x = true ∧ ∃ st ch sc, Item.Element st ch sc ∈ l ∧ x ∈ descendantItems ch
  | [] => by simp [findDescendantsDeep]
  | .Element st ch sc :: rest => by
    simp only [findDescendantsDeep, List.mem_append]
    rw [find_descendants_mem p x st ch sc, findDescendantsDeep_mem p x rest]
    constructor
    · rintro (⟨hx, hp⟩ | ⟨hp, st', ch', sc', hm, hx⟩)
      · exact ⟨hp, st, ch, sc, List.mem_cons_self _ _, hx⟩
      · exact ⟨hp, st', ch', sc', List.mem_cons_of_mem _ hm, hx⟩
    · rintro ⟨hp, st', ch', sc', hm, hx⟩
      rcases List.mem_cons.mp hm with heq | hm'
      · cases heq
        exact Or.inl ⟨hx, hp⟩
      · exact Or.inr ⟨hp, st', ch', sc', hm', hx⟩
  | .Comment b :: rest => by
    simp only [findDescendantsDeep]
    rw [findDescendantsDeep_mem p x rest]
    constructor
    · rintro ⟨hp, st', ch', sc', hm, hx⟩
      exact ⟨hp, st', ch', sc', List.mem_cons_of_mem _ hm, hx⟩
    · rintro ⟨hp, st', ch', sc', hm, hx⟩
      rcases List.mem_cons.mp hm with heq | hm'
      · cases heq
      · exact ⟨hp, st', ch', sc', hm', hx⟩
  | .Text b :: rest => by
    simp only [findDescendantsDeep]
    rw [findDescendantsDeep_mem p x rest]
    constructor
    · rintro ⟨hp, st', ch', sc', hm, hx⟩
      exact ⟨hp, st', ch', sc', List.mem_cons_of_mem _ hm, hx⟩
    · rintro ⟨hp, st', ch', sc', hm, hx⟩
      rcases List.mem_cons.mp hm with heq | hm'
      · cases heq
      · exact ⟨hp, st', ch', sc', hm', hx⟩
  | .DocType b :: rest => by
    simp only [findDescendantsDeep]
    rw [findDescendantsDeep_mem p x rest]
    constructor
    · rintro ⟨hp, st', ch', sc', hm, hx⟩
      exact ⟨hp, st', ch', sc', List.mem_cons_of_mem _ hm, hx⟩
    · rintro ⟨hp, st', ch', sc', hm, hx⟩
      rcases List.mem_cons.mp hm with heq | hm'
      · cases heq
      · exact ⟨hp, st', ch', sc', hm', hx⟩
  | .CData b :: rest => by
    simp only [findDescendantsDeep]
    rw [findDescendantsDeep_mem p x rest]
    constructor
    · rintro ⟨hp, st', ch', sc', hm, hx⟩
      exact ⟨hp, st', ch', sc', List.mem_cons_of_mem _ hm, hx⟩
    · rintro ⟨hp, st', ch', sc', hm, hx⟩
      rcases List.mem_cons.mp hm with heq | hm'
      · cases heq
      · exact ⟨hp, st', ch', sc', hm', hx⟩
  | .Decl b :: rest => by
    simp only [findDescendantsDeep]
    rw [findDescendantsDeep_mem p x rest]
    constructor
    · rintro ⟨hp, st', ch', sc', hm, hx⟩
      exact ⟨hp, st', ch', sc', List.mem_cons_of_mem _ hm, hx⟩
    · rintro ⟨hp, st', ch', sc', hm, hx⟩
      rcases List.mem_cons.mp hm with heq | hm'
      · cases heq
      · exact ⟨hp, st', ch', sc', hm', hx⟩
  | .PI b :: rest => by
    simp only [findDescendantsDeep]
    rw [findDescendantsDeep_mem p x rest]
    constructor
    · rintro ⟨hp, st', ch', sc', hm, hx⟩
      exact ⟨hp, st', ch', sc', List.mem_cons_of_mem _ hm, hx⟩
    · rintro ⟨hp, st', ch', sc', hm, hx⟩
      rcases List.mem_cons.mp hm with heq | hm'
      · cases heq
      · exact ⟨hp, st', ch', sc', hm', hx⟩
termination_by l => sizeOf l
decreasing_by all_goals first
  | (simp; done)
  | (simp; omega)

end

/-- The deep part of the search is the left-to-right flat-map of the
recursive search over the element children. -/
theorem findDescendantsDeep_eq_flatMap (p : Item → Bool) :
    ∀ l : List Item,
      findDescendantsDeep p l =
        (l.filterMap elemOf).flatMap (Element.find_descendants p) := by
  intro l
  induction l with
  | nil => simp [findDescendantsDeep]
  | cons it rest ih =>
    match it with
    | .Element st ch sc => simp [findDescendantsDeep, elemOf, ih]
    | .Comment b => simp [findDescendantsDeep, elemOf, ih]
    | .Text b => simp [findDescendantsDeep, elemOf, ih]
    | .DocType b => simp [findDescendantsDeep, elemOf, ih]
    | .CData b => simp [findDescendantsDeep, elemOf, ih]
    | .Decl b => simp [findDescendantsDeep, elemOf, ih]
    | .PI b => simp [findDescendantsDeep, elemOf, ih]

/-- C6.  `find_descendants` yields exactly the descendants (at any depth,
not only elements) satisfying the predicate; the order is direct matches
first, then — per element child, left to right — that child's own matches,
recursively.  On `<a><b/><c/><d><e/></d></a>`, searching for all elements
yields `[b, c, d, e]` in that order: the direct element children `b`, `c`,
`d` first (left to right), then the deeper match `e` found inside `d`. -/
theorem C6_find_descendants :
    (∀ (p : Item → Bool) (st : StartTag) (children : List Item) (sc : Bool) x,
      x ∈ Element.find_descendants p ⟨st, children, sc⟩ ↔
        x ∈ descendantItems children ∧ p x = true) ∧
    (∀ (p : Item → Bool) (st : StartTag) (children : List Item) (sc : Bool),
      Element.find_descendants p ⟨st, children, sc⟩ =
        children.filter p ++
          (children.filterMap elemOf).flatMap (Element.find_descendants p)) ∧
    Element.find_descendants isElementItem
        ⟨⟨strBytes "a", []⟩,
          [.Element ⟨strBytes "b", []⟩ [] true,
           .Element ⟨strBytes "c", []⟩ [] true,
           .Element ⟨strBytes "d", []⟩ [.Element ⟨strBytes "e", []⟩ [] true] false],
          false⟩ =
      [.Element ⟨strBytes "b", []⟩ [] true,
       .Element ⟨strBytes "c", []⟩ [] true,
       .Element ⟨strBytes "d", []⟩ [.Element ⟨strBytes "e", []⟩ [] true] false,
       .Element ⟨strBytes "e", []⟩ [] true] := by
  refine ⟨fun p st children sc x => find_descendants_mem p x st children sc, ?_, ?_⟩
  · intro p st children sc
    rw [Element.find_descendants, findDescendantsDeep_eq_flatMap]
  · simp [Element.find_descendants, findDescendantsDeep, isElementItem]

/-- C6, counterexample to the claim's example: on
`<a><b/><c/><d><e/></d></a>` the search for all elements yields
`[b, c, d, e]` — the element `d` matches the predicate too — not
`[b, c, e]` as claimed. -/
theorem C6_find_descendants_counterexample :
    Element.find_descendants isElementItem
        ⟨⟨strBytes "a", []⟩,
          [.Element ⟨strBytes "b", []⟩ [] true,
           .Element ⟨strBytes "c", []⟩ [] true,
           .Element ⟨strBytes "d", []⟩ [.Element ⟨strBytes "e", []⟩ [] true] false],
          false⟩ ≠
      [.Element ⟨strBytes "b", []⟩ [] true,
       .Element ⟨strBytes "c", []⟩ [] true,
       .Element ⟨strBytes "e", []⟩ [] true] := by
  intro h
  have hlen := congrArg List.length h
  simp [Element.find_descendants, findDescendantsDeep, isElementItem] at hlen

/-! ## Claim C10: text-content aggregation -/

/-- The function `String.join` distributes over list append. -/
theorem string_join_append (a b : List String) :
    String.join (a ++ b) = String.join a ++ String.join b := by
  rw [String.join_eq, String.join_eq, String.join_eq]
  rw [show ∀ x y : List Char, String.mk x ++ String.mk y = String.mk (x ++ y) from
    fun x y => rfl]
  simp

/-- The value of `String.join` at a cons. -/
theorem string_join_cons (x : String) (xs : List String) :
    String.join (x :: xs) = x ++ String.join xs := by
  obtain ⟨d⟩ := x
  rw [String.join_eq, String.join_eq]
  rw [show ∀ a b : List Char, String.mk a ++ String.mk b = String.mk (a ++ b) from
    fun a b => rfl]
  simp

/-- The pieces collected by `get_text_content` concatenate to the decoded
text leaves (undecodable ones skipped), in document order. -/
theorem textPieces_join : ∀ l : List Item,
    String.join (textPieces l) =
      String.join ((textLeavesOf l).filterMap utf8Decode)
  | [] => by simp [textPieces, textLeavesOf]
  | .Text b :: rest => by
    simp only [textPieces, textLeavesOf, List.filterMap_cons]
    cases hdec : utf8Decode b with
    | none => simpa [hdec] using textPieces_join rest
    | some s =>
      simp only [hdec, List.singleton_append]
      rw [string_join_cons, string_join_cons, textPieces_join rest]
  | .Element st ch sc :: rest => by
    simp only [textPieces, textLeavesOf]
    rw [string_join_cons]
    rw [Element.get_text_content, textPieces_join ch, textPieces_join rest,
      List.filterMap_append, string_join_append]
  | .Comment b :: rest => by
    simp only [textPieces, textLeavesOf]
    exact textPieces_join rest
  | .DocType b :: rest => by
    simp only [textPieces, textLeavesOf]
    exact textPieces_join rest
  | .CData b :: rest => by
    simp only [textPieces, textLeavesOf]
    exact textPieces_join rest
  | .Decl b :: rest => by
    simp only [textPieces, textLeavesOf]
    exact textPieces_join rest
  | .PI b :: rest => by
    simp only [textPieces, textLeavesOf]
    exact textPieces_join rest
termination_by l => sizeOf l
decreasing_by all_goals first
  | (simp; done)
  | (simp; omega)

/-- C10.  `get_text_content` concatenates, in document order, the decoded
payloads of all `Text` leaves reached by recursive descent through element
children, skipping every non-text leaf kind and silently skipping `Text`
payloads that do not decode.  On `<p>Hello<b>World</b></p>` the text
content of `p` is `"HelloWorld"`; an undecodable text child (payload
`0xFF`) contributes nothing instead of failing. -/
theorem C10_get_text_content :
    (∀ el : Element,
      Element.get_text_content el =
        String.join ((textLeavesOf el.children).filterMap utf8Decode)) ∧
    Element.get_text_content
        ⟨⟨strBytes "p", []⟩,
          [.Text (strBytes "Hello"),
           .Element ⟨strBytes "b", []⟩ [.Text (strBytes "World")] false],
          false⟩ = "HelloWorld" ∧
    Element.get_text_content
        ⟨⟨strBytes "p", []⟩, [.Text [0xFF], .Text (strBytes "!")], false⟩ = "!" := by
  refine ⟨?_, ?_, ?_⟩
  · intro el
    obtain ⟨st, children, sc⟩ := el
    rw [Element.get_text_content, textPieces_join children]
  · simp [Element.get_text_content, textPieces]
    rfl
  · simp [Element.get_text_content, textPieces]
    rfl

/-! ## Claim C8: attribute map -/

/-- The three-stage pipeline of `get_all_attributes` is the single
`filterMap` of `decodedAttrEntry`. -/
theorem get_all_attributes_eq (el : Element) :
    el.get_all_attributes = el.element.attrs.filterMap decodedAttrEntry := by
  rw [Element.get_all_attributes]
  induction el.element.attrs with
  | nil => simp
  | cons a rest ih =>
    match a with
    | .ok kb vb =>
      simp only [List.filterMap_cons, decodedAttrEntry]
      cases hk : utf8Decode kb <;> cases hv : utf8Decode vb <;>
        simp [List.filterMap_cons, List.map_cons, hk, hv, ih]
    | .err =>
      simp [List.filterMap_cons, decodedAttrEntry, ih]

/-- After the in-place replacement of the `k`-keyed values, the first
`k`-keyed entry reads the new value (when some entry has key `k`). -/
theorem find_map_replace_eq (m : List (String × String)) (k v : String)
    (hany : m.any fun p => p.1 = k) :
    (m.map fun p => if p.1 = k then (k, v) else p).find? (fun p => p.1 = k) =
      some (k, v) := by
  induction m with
  | nil => simp at hany
  | cons a m ih =>
    by_cases ha : a.1 = k
    · simp [List.find?_cons, ha]
    · simp only [List.any_cons, Bool.or_eq_true, decide_eq_true_eq] at hany
      rcases hany with h | h
      · exact absurd h ha
      · simp only [List.map_cons, if_neg ha]
        rw [List.find?_cons_of_neg _ (by simpa using ha)]
        exact ih (by simpa using h)

/-- The in-place replacement of the `k`-keyed values does not change what
any other key finds. -/
theorem find_map_replace_ne (m : List (String × String)) (k v key : String)
    (hne : key ≠ k) :
    (m.map fun p => if p.1 = k then (k, v) else p).find? (fun p => p.1 = key) =
      m.find? fun p => p.1 = key := by
  induction m with
  | nil => simp
  | cons a m ih =>
    by_cases ha : a.1 = k
    · have hk : ¬((k, v).1 = key) := by
        simp
        intro h
        exact hne h.symm
      have ha' : ¬(a.1 = key) := by
        rw [ha]
        intro h
        exact hne h.symm
      simp only [List.map_cons, if_pos ha]
      rw [List.find?_cons_of_neg _ (by simpa using hk),
        List.find?_cons_of_neg _ (by simpa using ha')]
      exact ih
    · simp only [List.map_cons, if_neg ha]
      by_cases hakey : a.1 = key
      · rw [List.find?_cons_of_pos _ (by simpa using hakey),
          List.find?_cons_of_pos _ (by simpa using hakey)]
      · rw [List.find?_cons_of_neg _ (by simpa using hakey),
          List.find?_cons_of_neg _ (by simpa using hakey)]
        exact ih

/-- Reading `mapGet` after `mapInsert`: the inserted key reads back the new value,
every other key is unchanged. -/
theorem mapGet_mapInsert (m : List (String × String)) (k v key : String) :
    mapGet (mapInsert m k v) key = if key = k then some v else mapGet m key := by
  by_cases hkey : key = k
  · subst hkey
    rw [if_pos rfl, mapInsert]
    by_cases hany : m.any fun p => p.1 = key
    · rw [if_pos hany, mapGet, find_map_replace_eq m key v hany]
      rfl
    · rw [if_neg hany, mapGet, List.find?_append]
      have hnone : m.find? (fun p => p.1 = key) = none := by
        rw [List.find?_eq_none]
        intro x hx
        simp only [List.any_eq_true, not_exists, not_and] at hany
        simpa using hany x hx
      rw [hnone]
      rw [show (none : Option (String × String)).or
        ([(key, v)].find? fun p => p.1 = key) =
          ([(key, v)].find? fun p => p.1 = key) from rfl]
      rw [List.find?_cons_of_pos _ (by simp)]
      rfl
  · rw [if_neg hkey, mapInsert]
    by_cases hany : m.any fun p => p.1 = k
    · rw [if_pos hany, mapGet, find_map_replace_ne m k v key hkey, mapGet]
    · rw [if_neg hany, mapGet, List.find?_append, mapGet]
      cases hfind : m.find? fun p => p.1 = key with
      | some p => rfl
      | none =>
        have hne : ¬((k, v).1 = key) := by
          simp
          intro h
          exact hkey h.symm
        rw [show (none : Option (String × String)).or
          ([(k, v)].find? fun p => p.1 = key) =
            ([(k, v)].find? fun p => p.1 = key) from rfl]
        rw [List.find?_cons_of_neg _ (by simpa using hne)]
        rfl

/-- Lookup in the map built by folding `insert` over the pairs: the last
occurrence of the key wins. -/
theorem mapGet_hashMapFromList (l : List (String × String)) (key : String) :
    mapGet (hashMapFromList l) key =
      (l.reverse.find? fun p => p.1 = key).map Prod.snd := by
  induction l using List.reverseRecOn with
  | nil => simp [hashMapFromList, mapGet]
  | append_singleton l p ih =>
    rw [hashMapFromList, List.foldl_append]
    simp only [List.foldl_cons, List.foldl_nil]
    rw [show List.foldl (fun m p => mapInsert m p.1 p.2) [] l = hashMapFromList l from rfl]
    rw [mapGet_mapInsert, List.reverse_append]
    simp only [List.reverse_cons, List.reverse_nil, List.nil_append,
      List.singleton_append]
    by_cases hk : p.1 = key
    · rw [if_pos hk.symm, List.find?_cons_of_pos _ (by simpa using hk)]
      rfl
    · rw [if_neg (fun h => hk h.symm), List.find?_cons_of_neg _ (by simpa using hk), ih]

/-- C8.  `get_attributes` is the mapping built by iterating the underlying
attribute list in original order with insert semantics: looking up a key
returns the value of its *last* decodable occurrence, attribute-syntax
errors and undecodable keys/values being silently skipped.  Parsing
`<a x="1" x="2"/>` yields the map `{x: "2"}`; an attribute list with a
malformed entry, an undecodable key and an undecodable value keeps only the
well-formed pair. -/
theorem C8_get_attributes :
    (∀ (el : Element) (k : String),
      mapGet el.get_attributes k =
        ((el.element.attrs.filterMap decodedAttrEntry).reverse.find?
          fun p => p.1 = k).map Prod.snd) ∧
    parse_events [.ok (.Empty ⟨strBytes "a",
        [.ok (strBytes "x") (strBytes "1"), .ok (strBytes "x") (strBytes "2")]⟩)] =
      .ok [.Element ⟨strBytes "a",
        [.ok (strBytes "x") (strBytes "1"), .ok (strBytes "x") (strBytes "2")]⟩ [] true] ∧
    Element.get_attributes ⟨⟨strBytes "a",
        [.ok (strBytes "x") (strBytes "1"), .ok (strBytes "x") (strBytes "2")]⟩, [], true⟩ =
      [("x", "2")] ∧
    Element.get_all_attributes ⟨⟨strBytes "a",
        [.ok [0xFF] (strBytes "1"), .err, .ok (strBytes "y") [0xFF],
         .ok (strBytes "x") (strBytes "2")]⟩, [], true⟩ = [("x", "2")] := by
  refine ⟨?_, ?_, ?_, ?_⟩
  · intro el k
    rw [Element.get_attributes, mapGet_hashMapFromList, get_all_attributes_eq]
  · simp [parse_events, Except.map]
  · rfl
  · rfl

/-! ## Claim C9: set_attribute -/

/-- Re-encoded attribute pairs decode back to themselves (the rewrite in
`set_attribute` loses no value). -/
theorem filterMap_decodedAttrEntry_render (m : List (String × String)) :
    (m.map fun p => AttrEntry.ok (strBytes p.1) (strBytes p.2)).filterMap
      decodedAttrEntry = m := by
  induction m with
  | nil => simp
  | cons p m ih =>
    simp [decodedAttrEntry, utf8Decode_strBytes, ih]

/-- C9.  `set_attribute` fetches the collapsed last-wins attribute map,
inserts or overwrites the given key, and rewrites the element's entire
attribute list from that map (so the original attribute ordering is not
guaranteed); reading the attributes back yields exactly the updated map.
Parsing `<x></x><a></a><y></y>`, setting `works=yes` on the middle element
and serializing yields `<x></x><a works="yes"></a><y></y>`. -/
theorem C9_set_attribute :
    (∀ (el : Element) (k v : String),
      (el.set_attribute k v).element.attrs =
        (mapInsert el.get_attributes k v).map fun p =>
          AttrEntry.ok (strBytes p.1) (strBytes p.2)) ∧
    (∀ (el : Element) (k v : String),
      (el.set_attribute k v).get_all_attributes = mapInsert el.get_attributes k v) ∧
    parse_events [.ok (.Start ⟨strBytes "x", []⟩), .ok (.End (strBytes "x")),
        .ok (.Start ⟨strBytes "a", []⟩), .ok (.End (strBytes "a")),
        .ok (.Start ⟨strBytes "y", []⟩), .ok (.End (strBytes "y"))] =
      .ok [.Element ⟨strBytes "x", []⟩ [] false, .Element ⟨strBytes "a", []⟩ [] false,
        .Element ⟨strBytes "y", []⟩ [] false] ∧
    items_to_string [.Element ⟨strBytes "x", []⟩ [] false,
        (Element.set_attribute ⟨⟨strBytes "a", []⟩, [], false⟩ "works" "yes").toItem,
        .Element ⟨strBytes "y", []⟩ [] false] =
      "<x></x><a works=\"yes\"></a><y></y>" := by
  refine ⟨fun el k v => rfl, ?_, ?_, ?_⟩
  · intro el k v
    rw [get_all_attributes_eq]
    show ((mapInsert el.get_attributes k v).map fun p =>
      AttrEntry.ok (strBytes p.1) (strBytes p.2)).filterMap decodedAttrEntry =
        mapInsert el.get_attributes k v
    rw [filterMap_decodedAttrEntry_render]
  · simp [parse_events, takeUntilMatch, Except.map]
  · rfl

/-! ## Claims C2, C3, C4: structural and lexical errors -/

/-- A never-closing prefix passes the scan through to the tail (at some
depth that is still at least 1). -/
theorem takeUntilMatch_neverCloses :
    ∀ (mid : List Event) (d : Nat), 1 ≤ d → neverCloses d mid = true →
      ∀ tail : List (Except Error Event), ∃ d', 1 ≤ d' ∧
        takeUntilMatch d (mid.map .ok ++ tail) =
          (takeUntilMatch d' tail).map fun (s, r) => (mid ++ s, r) := by
  intro mid
  induction mid with
  | nil =>
    intro d hd _ tail
    refine ⟨d, hd, ?_⟩
    simp only [List.map_nil, List.nil_append]
    cases takeUntilMatch d tail with
    | none => rfl
    | some p => cases p; rfl
  | cons e mid ih =>
    intro d hd hnc tail
    match e with
    | .Start st =>
      simp only [neverCloses] at hnc
      obtain ⟨d', hd', heq⟩ := ih (d + 1) (by omega) hnc tail
      refine ⟨d', hd', ?_⟩
      simp only [List.map_cons, List.cons_append, takeUntilMatch, List.append_eq, heq,
        Option.map_map]
      cases takeUntilMatch d' tail with
      | none => rfl
      | some p => cases p; simp
    | .End nb =>
      simp only [neverCloses] at hnc
      have hd1 : ¬(d = 1) := by
        intro h
        rw [if_pos h] at hnc
        cases hnc
      rw [if_neg hd1] at hnc
      obtain ⟨d', hd', heq⟩ := ih (d - 1) (by omega) hnc tail
      refine ⟨d', hd', ?_⟩
      simp only [List.map_cons, List.cons_append, takeUntilMatch, List.append_eq,
        if_neg hd1, heq, Option.map_map]
      cases takeUntilMatch d' tail with
      | none => rfl
      | some p => cases p; simp
    | .Empty st =>
      simp only [neverCloses] at hnc
      obtain ⟨d', hd', heq⟩ := ih d hd hnc tail
      refine ⟨d', hd', ?_⟩
      simp only [List.map_cons, List.cons_append, takeUntilMatch, List.append_eq, heq,
        Option.map_map]
      cases takeUntilMatch d' tail with
      | none => rfl
      | some p => cases p; simp
    | .Text b =>
      simp only [neverCloses] at hnc
      obtain ⟨d', hd', heq⟩ := ih d hd hnc tail
      refine ⟨d', hd', ?_⟩
      simp only [List.map_cons, List.cons_append, takeUntilMatch, List.append_eq, heq,
        Option.map_map]
      cases takeUntilMatch d' tail with
      | none => rfl
      | some p => cases p; simp
    | .Comment b =>
      simp only [neverCloses] at hnc
      obtain ⟨d', hd', heq⟩ := ih d hd hnc tail
      refine ⟨d', hd', ?_⟩
      simp only [List.map_cons, List.cons_append, takeUntilMatch, List.append_eq, heq,
        Option.map_map]
      cases takeUntilMatch d' tail with
      | none => rfl
      | some p => cases p; simp
    | .CData b =>
      simp only [neverCloses] at hnc
      obtain ⟨d', hd', heq⟩ := ih d hd hnc tail
      refine ⟨d', hd', ?_⟩
      simp only [List.map_cons, List.cons_append, takeUntilMatch, List.append_eq, heq,
        Option.map_map]
      cases takeUntilMatch d' tail with
      | none => rfl
      | some p => cases p; simp
    | .PI b =>
      simp only [neverCloses] at hnc
      obtain ⟨d', hd', heq⟩ := ih d hd hnc tail
      refine ⟨d', hd', ?_⟩
      simp only [List.map_cons, List.cons_append, takeUntilMatch, List.append_eq, heq,
        Option.map_map]
      cases takeUntilMatch d' tail with
      | none => rfl
      | some p => cases p; simp
    | .Decl b =>
      simp only [neverCloses] at hnc
      obtain ⟨d', hd', heq⟩ := ih d hd hnc tail
      refine ⟨d', hd', ?_⟩
      simp only [List.map_cons, List.cons_append, takeUntilMatch, List.append_eq, heq,
        Option.map_map]
      cases takeUntilMatch d' tail with
      | none => rfl
      | some p => cases p; simp
    | .DocType b =>
      simp only [neverCloses] at hnc
      obtain ⟨d', hd', heq⟩ := ih d hd hnc tail
      refine ⟨d', hd', ?_⟩
      simp only [List.map_cons, List.cons_append, takeUntilMatch, List.append_eq, heq,
        Option.map_map]
      cases takeUntilMatch d' tail with
      | none => rfl
      | some p => cases p; simp

/-- C2.  When a start token's matching end token never arrives before the
stream runs out, parsing fails with a missing-end-tag error naming the
still-open (outermost unmatched) opening tag, and no partial tree is
returned. -/
theorem C2_missing_end_tag (pre : List Event) (st : StartTag) (post : List Event)
    (n : String) (hpre : WF pre) (hpost : neverCloses 1 post = true)
    (hname : utf8Decode st.name = some n) :
    parse_events (pre.map .ok ++ .ok (.Start st) :: post.map .ok) =
      .error (.IllFormed (.MissingEndTag n)) := by
  obtain ⟨items, hparse, _⟩ :=
    parse_events_wf_append hpre (.ok (.Start st) :: post.map .ok)
  rw [hparse]
  obtain ⟨d', hd', hscan⟩ := takeUntilMatch_neverCloses post 1 (by omega) hpost []
  rw [List.append_nil] at hscan
  have hnone : takeUntilMatch 1 (post.map .ok) = none := by
    rw [hscan]
    rfl
  rw [parse_events_start_none st _ hnone, hname]
  rfl

/-- Witness for C2 at the claim's own example `<a><b></a>`: the token
stream of `<a><b></a>` (start `a`, start `b`, end `a`) fails with a
missing-end-tag error naming `a`. -/
theorem C2_missing_end_tag_witness :
    parse_events [.ok (.Start ⟨strBytes "a", []⟩), .ok (.Start ⟨strBytes "b", []⟩),
        .ok (.End (strBytes "a"))] =
      .error (.IllFormed (.MissingEndTag "a")) := by
  have h := C2_missing_end_tag [] ⟨strBytes "a", []⟩
    [.Start ⟨strBytes "b", []⟩, .End (strBytes "a")] "a" WF.nil (by rfl) (by rfl)
  simpa using h

/-- C3 (amended).  An end token arriving at the top level with every
earlier token already matched fails with an unmatched-end-tag error
carrying the decoded name, or a decode error when the name bytes are not
valid text.  The claim's example is wrong, however: the token stream of
`<a></b>` parses *successfully* — the builder matches end tags by depth
counting only and never compares names, so `</b>` silently closes `<a>`. -/
theorem C3_unmatched_end_tag (pre : List Event) (nb : Bytes)
    (rest : List (Except Error Event)) (hpre : WF pre) :
    parse_events (pre.map .ok ++ .ok (.End nb) :: rest) =
      match utf8Decode nb with
      | some n => .error (.IllFormed (.UnmatchedEndTag n))
      | none => .error .NonDecodable := by
  obtain ⟨items, hparse, _⟩ := parse_events_wf_append hpre (.ok (.End nb) :: rest)
  rw [hparse, parse_events_end]
  cases utf8Decode nb <;> rfl

/-- Witness for C3: a lone `</b>` fails with `UnmatchedEndTag "b"`, and a
lone end tag with non-UTF-8 name bytes fails with the decode error. -/
theorem C3_unmatched_end_tag_witness :
    parse_events [.ok (.End (strBytes "b"))] =
      .error (.IllFormed (.UnmatchedEndTag "b")) ∧
    parse_events [.ok (.End [0xFF])] = .error .NonDecodable := by
  constructor
  · have h := C3_unmatched_end_tag [] (strBytes "b") [] WF.nil
    simpa using h
  · have h := C3_unmatched_end_tag [] [0xFF] [] WF.nil
    simpa using h

/-- C3, counterexample to the claim's example: the token stream of
`<a></b>` does not fail at all — it parses as a single element named `a`
(the end token's name is never compared). -/
theorem C3_unmatched_end_tag_counterexample :
    parse_events [.ok (.Start ⟨strBytes "a", []⟩), .ok (.End (strBytes "b"))] =
      .ok [.Element ⟨strBytes "a", []⟩ [] false] ∧
    parse_events [.ok (.Start ⟨strBytes "a", []⟩), .ok (.End (strBytes "b"))] ≠
      .error (.IllFormed (.UnmatchedEndTag "b")) := by
  have h : parse_events [.ok (.Start ⟨strBytes "a", []⟩), .ok (.End (strBytes "b"))] =
      .ok [.Element ⟨strBytes "a", []⟩ [] false] := by
    simp [parse_events, takeUntilMatch, Except.map]
  refine ⟨h, ?_⟩
  rw [h]
  intro hcontra
  cases hcontra

/-- C4 (amended).  A lexical error at the *top level* of the token stream
is returned unchanged; but a lexical error arriving while an element is
open is *not* propagated — the scanning loop treats it like end-of-stream
and reports a missing-end-tag error naming the open tag. -/
theorem C4_lexical_error_propagation :
    (∀ (pre : List Event) (e : Error) (rest : List (Except Error Event)), WF pre →
      parse_events (pre.map .ok ++ .error e :: rest) = .error e) ∧
    (∀ (pre : List Event) (st : StartTag) (mid : List Event) (e : Error)
        (rest : List (Except Error Event)) (n : String), WF pre →
      neverCloses 1 mid = true → utf8Decode st.name = some n →
      parse_events (pre.map .ok ++ .ok (.Start st) :: (mid.map .ok ++ .error e :: rest)) =
        .error (.IllFormed (.MissingEndTag n))) := by
  constructor
  · intro pre e rest hpre
    obtain ⟨items, hparse, _⟩ := parse_events_wf_append hpre (.error e :: rest)
    rw [hparse, parse_events_error]
    rfl
  · intro pre st mid e rest n hpre hmid hname
    obtain ⟨items, hparse, _⟩ :=
      parse_events_wf_append hpre (.ok (.Start st) :: (mid.map .ok ++ .error e :: rest))
    rw [hparse]
    obtain ⟨d', hd', hscan⟩ :=
      takeUntilMatch_neverCloses mid 1 (by omega) hmid (.error e :: rest)
    have hnone : takeUntilMatch 1 (mid.map .ok ++ .error e :: rest) = none := by
      rw [hscan]
      rfl
    rw [parse_events_start_none st _ hnone, hname]
    rfl

/-- Witness for C4: a top-level lexical error comes back unchanged, and
the same error inside an open `<a>` is converted to `MissingEndTag "a"`. -/
theorem C4_lexical_error_propagation_witness :
    parse_events [.error (.LexOther 7)] = .error (.LexOther 7) ∧
    parse_events [.ok (.Start ⟨strBytes "a", []⟩), .error (.LexOther 7)] =
      .error (.IllFormed (.MissingEndTag "a")) := by
  constructor
  · have h := C4_lexical_error_propagation.1 [] (.LexOther 7) [] WF.nil
    simpa using h
  · have h := C4_lexical_error_propagation.2 [] ⟨strBytes "a", []⟩ [] (.LexOther 7) []
      "a" WF.nil (by rfl) (by rfl)
    simpa using h

/-- C4, counterexample to the claim as stated: the lexical error
`LexOther 7` arriving inside the open element `<a>` is not returned to the
caller — parsing returns `MissingEndTag "a"` instead of that error. -/
theorem C4_lexical_error_counterexample :
    parse_events [.ok (.Start ⟨strBytes "a", []⟩), .error (.LexOther 7)] ≠
      .error (.LexOther 7) := by
  have h : parse_events [.ok (.Start ⟨strBytes "a", []⟩), .error (.LexOther 7)] =
      .error (.IllFormed (.MissingEndTag "a")) := by
    simp [parse_events, takeUntilMatch]
    rfl
  rw [h]
  intro hcontra
  cases hcontra

/-! ## Claim C1: the round-trip invariant -/

/-- A list of events whose renderings each decode has a decodable
concatenated rendering. -/
theorem exists_utf8Decode_flatMap (es : List Event)
    (h : ∀ e ∈ es, ∃ s, utf8Decode (renderEventBytes e) = some s) :
    ∃ s, utf8Decode (es.flatMap renderEventBytes) = some s := by
  induction es with
  | nil => exact ⟨"", rfl⟩
  | cons e es ih =>
    obtain ⟨s1, hs1⟩ := h e (by simp)
    obtain ⟨s2, hs2⟩ := ih fun e' he' => h e' (by simp [he'])
    refine ⟨s1 ++ s2, ?_⟩
    simpa using utf8Decode_append _ _ _ _ hs1 hs2

/-- When every event rendering of a forest decodes, `items_to_string`
produces exactly the decoding of the whole rendered byte stream. -/
theorem items_to_string_decode :
    ∀ items : List Item,
      (∀ e ∈ itemsEvents items, ∃ s, utf8Decode (renderEventBytes e) = some s) →
      ∃ s : String,
        utf8Decode ((itemsEvents items).flatMap renderEventBytes) = some s ∧
          items_to_string items = s := by
  intro items
  induction items with
  | nil => exact fun _ => ⟨"", rfl, rfl⟩
  | cons it items ih =>
    intro h
    have hsplit : itemsEvents (it :: items) = itemEvents it ++ itemsEvents items := by
      rw [itemsEvents]
    rw [hsplit] at h
    have h1 : ∀ e ∈ itemEvents it, ∃ s, utf8Decode (renderEventBytes e) = some s :=
      fun e he => h e (by simp [he])
    have h2 : ∀ e ∈ itemsEvents items, ∃ s, utf8Decode (renderEventBytes e) = some s :=
      fun e he => h e (by simp [he])
    obtain ⟨s1, hs1⟩ := exists_utf8Decode_flatMap (itemEvents it) h1
    obtain ⟨s2, hs2, hjoin⟩ := ih h2
    refine ⟨s1 ++ s2, ?_, ?_⟩
    · rw [hsplit, List.flatMap_append]
      exact utf8Decode_append _ _ _ _ hs1 hs2
    · have hsafe : to_string_safe it = .ok s1 := by
        rw [to_string_safe, hs1]
      rw [items_to_string, List.map_cons, hsafe, List.filterMap_cons]
      rw [show (match (Except.ok s1 : Except Error String) with
        | .ok s => some s
        | .error _ => none) = some s1 from rfl]
      rw [string_join_cons]
      rw [show String.join (((items.map to_string_safe).filterMap fun r =>
        match r with
        | .ok s => some s
        | .error _ => none)) = items_to_string items from rfl]
      rw [hjoin]

/-- C1.  The round-trip invariant: a well-formed token stream whose
rendering (by the external token writer) reproduces the input text —
which is how a lossless no-trim Token Source run is characterised at the
interface — parses successfully, and stringifying the parsed items gives
back the input text byte-for-byte.  `hdec` states that each token's
rendered bytes are valid text, which holds for any token stream lexed from
a `&str` input, since `quick_xml` slices at character boundaries. -/
theorem C1_roundtrip (toks : List Event) (text : String) (hwf : WF toks)
    (hdec : ∀ e ∈ toks, ∃ s, utf8Decode (renderEventBytes e) = some s)
    (htext : utf8Decode (toks.flatMap renderEventBytes) = some text) :
    ∃ items : List Item,
      parse_events (toks.map .ok) = .ok items ∧ items_to_string items = text := by
  obtain ⟨items, hparse, hevents⟩ := parse_events_wf_append hwf []
  rw [List.append_nil] at hparse
  have hparse' : parse_events (toks.map .ok) = .ok items := by
    rw [hparse, parse_events_nil]
    simp [Except.map]
  obtain ⟨s, hs, hstr⟩ := items_to_string_decode items (by rw [hevents]; exact hdec)
  rw [hevents] at hs
  rw [hs] at htext
  cases htext
  exact ⟨items, hparse', hstr⟩

/-- Witness for C1 on the input `<a>hi</a>`: its token stream parses to
one element and stringifies back to `<a>hi</a>`. -/
theorem C1_roundtrip_witness :
    ∃ items : List Item,
      parse_events ([Event.Start ⟨strBytes "a", []⟩, Event.Text (strBytes "hi"),
        Event.End (strBytes "a")].map .ok) = .ok items ∧
        items_to_string items = "<a>hi</a>" := by
  refine C1_roundtrip _ _ ?_ ?_ ?_
  · exact WF.node ⟨strBytes "a", []⟩ [Event.Text (strBytes "hi")] [] 
      (WF.leaf _ _ trivial WF.nil) WF.nil
  · intro e he
    simp only [List.mem_cons, List.not_mem_nil, or_false] at he
    rcases he with rfl | rfl | rfl
    · exact ⟨"<a>", rfl⟩
    · exact ⟨"hi", rfl⟩
    · exact ⟨"</a>", rfl⟩
  · rfl

end Ilex
